import Mathlib

/-!
Shallow embedding of the trcls splice-variant annotator core.

Embedded source files: `splice_list.py` (SpliceList, Region, Junction,
OverlappingExonsError), `transcript.py` (Segment CIGAR interpretation and
read grouping) and `annotations.py` (GTF grouping and pre-mRNA synthesis).

Conventions of the embedding:
* Python ints are `Int` (positions, tolerances) or `Nat` (lengths, counts).
* Exceptions are `Except` errors: `OverlappingExonsError` is
  `SLError.overlapping`, out-of-range subscripts (`components[0]` on an
  empty list, `lines2[0]` on an empty GTF) are `SLError.index`, a CIGAR of
  `'*'` is `CigarErr.noMapping` and `int(None)` on a malformed CIGAR is
  `CigarErr.malformed`.
* A `Junction`'s mutable `complement` back-reference is modelled by the
  flag `complementSet` (the code only ever reads `complement != None`
  inside `contains`); `has_complement` is the flag `hasComplement`.
* The Python sets of covered positions in `contains` are deduplicated
  lists of `Int`; the iteration order of the overhang set is modelled as
  ascending, matching the specification of the scan.
-/

/-- Junction kinds, mirroring `Junction.TYPE_START = 0` / `TYPE_END = 1`. -/
inductive JKind where
  | tStart
  | tEnd
deriving DecidableEq

/-- `Junction` from splice_list.py: a splice junction at a 1-based
position. -/
structure Junction where
  position : Int
  jtype : JKind
  hasComplement : Bool
  complementSet : Bool
deriving DecidableEq

/-- `Region` from splice_list.py: an inclusive 1-based interval. -/
structure Region where
  start : Int
  stop : Int
deriving DecidableEq

/-- A component of a `SpliceList` is either a `Region` or a `Junction`. -/
inductive Component where
  | region (r : Region)
  | junction (j : Junction)
deriving DecidableEq

def Component.isRegion : Component → Bool
  | .region _ => true
  | .junction _ => false

/-- `SpliceList` from splice_list.py; `regions` and `junctions` are the
stored filtered projections of `components`. -/
structure SpliceList where
  identifier : String
  components : List Component
  regions : List Region
  junctions : List Junction
deriving DecidableEq

/-- Errors raised by the `SpliceList` constructor: `OverlappingExonsError`
and the `IndexError` from subscripting an empty component list. -/
inductive SLError where
  | overlapping
  | index
deriving DecidableEq

/-- Stable insertion used by `sortLe`: `x` goes in front of the first
element it compares `le` to, hence after every earlier element with an
equal key. -/
def insertLe (le : α → α → Bool) (x : α) : List α → List α
  | [] => [x]
  | y :: ys => if le x y then x :: y :: ys else y :: insertLe le x ys

/-- A stable sort (insertion sort), modelling Python's stable
`sorted`. -/
def sortLe (le : α → α → Bool) : List α → List α
  | [] => []
  | x :: xs => insertLe le x (sortLe le xs)

/-- `sorted(exons, key=lambda pair: pair[0])`. -/
def sortExons (exons : List (Int × Int)) : List (Int × Int) :=
  sortLe (fun a b => decide (a.1 ≤ b.1)) exons

/-- The overlap scan of `SpliceList.__init__`: true iff some adjacent pair
of the (sorted) exon list satisfies `this_exon[1] >= next_exon[0]`. -/
def overlapAdjacent : List (Int × Int) → Bool
  | a :: b :: rest => decide (b.1 ≤ a.2) || overlapAdjacent (b :: rest)
  | _ => false

/-- Setting `has_complement = True` on a component; the code only ever
does this on components that are `Junction`s. -/
def Component.setHC : Component → Component
  | .region r => .region r
  | .junction j => .junction { j with hasComplement := true }

/-- `components[-1].has_complement = True`: `none` models the `IndexError`
on an empty list. -/
def setLastHC : List Component → Option (List Component)
  | [] => none
  | [c] => some [c.setHC]
  | c :: c2 :: rest => (setLastHC (c2 :: rest)).map (fun l => c :: l)

/-- The three components appended per exon: start junction, region, end
junction. -/
def exonTriple (e : Int × Int) : List Component :=
  [Component.junction ⟨e.1, JKind.tStart, false, false⟩,
   Component.region ⟨e.1, e.2⟩,
   Component.junction ⟨e.2, JKind.tEnd, false, false⟩]

def regionsOf (comps : List Component) : List Region :=
  comps.filterMap (fun c => match c with
    | .region r => some r
    | .junction _ => none)

def junctionsOf (comps : List Component) : List Junction :=
  comps.filterMap (fun c => match c with
    | .region _ => none
    | .junction j => some j)

/-- `SpliceList.__init__` from splice_list.py. -/
def mkSpliceList (identifier : String) (exons : List (Int × Int))
    (setLeftJunction setRightJunction : Bool) : Except SLError SpliceList :=
  let sorted := sortExons exons
  if overlapAdjacent sorted then .error .overlapping
  else
    let comps0 := sorted.flatMap exonTriple
    let step1 : Except SLError (List Component) :=
      if setLeftJunction then
        match comps0 with
        | [] => .error .index
        | c :: cs => .ok (c.setHC :: cs)
      else .ok (comps0.drop 1)
    match step1 with
    | .error e => .error e
    | .ok comps1 =>
      let step2 : Except SLError (List Component) :=
        if setRightJunction then
          match setLastHC comps1 with
          | none => .error .index
          | some l => .ok l
        else .ok comps1.dropLast
      match step2 with
      | .error e => .error e
      | .ok comps2 =>
        .ok ⟨identifier, comps2, regionsOf comps2, junctionsOf comps2⟩

/-- `set(range(a, b+1))` as a list of positions (empty when `b < a`). -/
def intRange (a b : Int) : List Int :=
  (List.range (b + 1 - a).toNat).map (fun n => a + (n : Int))

/-- The set of positions covered by a list of regions, as a deduplicated
list. -/
def positionsOf (rs : List Region) : List Int :=
  ((rs.map (fun r => intRange r.start r.stop)).flatten).eraseDups

/-- `other_regions.difference(this_regions)`, iterated in ascending
order. -/
def overhangList (selfRs otherRs : List Region) : List Int :=
  sortLe (fun a b => decide (a ≤ b))
    ((positionsOf otherRs).filter
      (fun p => !(decide (p ∈ positionsOf selfRs))))

/-- The overhang scan of `SpliceList.contains`: walks the overhang
positions keeping the length of the current run of consecutive integers,
returning true as soon as a run exceeds `tol`.  Initial state is
`run = 0`, `last = -1`. -/
def overhangViolation (tol : Int) : List Int → Int → Int → Bool
  | [], _, _ => false
  | pos :: rest, run, last =>
    let run' := if pos - last == 1 then run + 1 else 1
    if decide (run' > tol) then true else overhangViolation tol rest run' pos

/-- The indices `i` recorded by the inner loop of `contains` for one
junction `j` of the other SpliceList: every `i` with matching type and
`self.junctions[i].position` within `[j.position - tol, j.position + tol]`. -/
def matchIndices (tol : Int) (selfJs : List Junction) (j : Junction) :
    List Int :=
  (selfJs.enum.filter (fun p =>
      decide (p.2.jtype = j.jtype) &&
      decide (j.position - tol ≤ p.2.position) &&
      decide (p.2.position ≤ j.position + tol))).map (fun p => (p.1 : Int))

/-- The junction loop of `contains`: `none` when some junction of the
other SpliceList has no match (the `return False` branch), otherwise the
accumulated `match_order` list (indices recorded only for junctions whose
`complement` is set). -/
def matchLoop (tol : Int) (selfJs : List Junction) :
    List Junction → Option (List Int)
  | [] => some []
  | j :: rest =>
    let ms := matchIndices tol selfJs j
    if ms.isEmpty then none
    else (matchLoop tol selfJs rest).map
      (fun mo => (if j.complementSet then ms else []) ++ mo)

/-- The complement-pair adjacency scan: true iff some consecutive pair
`(match_order[2k], match_order[2k+1])` differs by more than 1. -/
def pairAdjacencyFails : List Int → Bool
  | a :: b :: rest => decide ((a - b).natAbs > 1) || pairAdjacencyFails rest
  | _ => false

/-- `SpliceList.contains` from splice_list.py.  Returns `none` for the
`TypeError` of `set.union()` with no arguments, raised when either
SpliceList has an empty region list. -/
def SpliceList.contains (self other : SpliceList) (tol : Int) :
    Option Bool :=
  if other.regions.isEmpty || self.regions.isEmpty then none
  else if overhangViolation tol (overhangList self.regions other.regions)
      0 (-1) then some false
  else
    match matchLoop tol self.junctions other.junctions with
    | none => some false
    | some mo => if pairAdjacencyFails mo then some false else some true

/-- Errors of the CIGAR interpretation: `NoMappingError` for a CIGAR of
`'*'` (or, in `Segment.__init__`, an empty region list), and the
`TypeError` of `int(None)` on an operation letter with no preceding
count. -/
inductive CigarErr where
  | noMapping
  | malformed
deriving DecidableEq

/-- The character loop of `Segment._expand_cigar`; the accumulator is the
pending digit string, as a number.  A trailing number with no operation
letter is silently dropped, as in the source. -/
def expandCigarLoop : List Char → Option Nat → Except CigarErr (List Char)
  | [], _ => .ok []
  | c :: rest, acc =>
    if c.isDigit then
      expandCigarLoop rest (some ((acc.getD 0) * 10 + (c.toNat - 48)))
    else
      match acc with
      | none => .error .malformed
      | some n => (expandCigarLoop rest none).map
          (fun e => List.replicate n c ++ e)

/-- `Segment._expand_cigar` from transcript.py. -/
def expandCigar (cigar : String) : Except CigarErr (List Char) :=
  if cigar = "*" then .error .noMapping
  else expandCigarLoop cigar.toList none

/-- `Segment._CIGAR_MAPPING`. -/
def cigarMappingOps : List Char := ['M', 'D', 'N', '=', 'X']

/-- `Segment._CIGAR_MAPS_BOTH`. -/
def cigarMapsBoth : List Char := ['M', '=', 'X']

/-- Run-length encoding of the match/skip classification, as built by the
`cigar_buffer` loop (maximal runs, counts ≥ 1). -/
def rleRuns : List Bool → List (Bool × Nat)
  | [] => []
  | b :: rest =>
    match rleRuns rest with
    | [] => [(b, 1)]
    | (b2, n) :: tail =>
      if b == b2 then (b, n + 1) :: tail else (b, 1) :: (b2, n) :: tail

/-- Relabel skip runs of length `≤ skip_tolerance` as match runs. -/
def absorbSkips (skipTol : Int) (buf : List (Bool × Nat)) :
    List (Bool × Nat) :=
  buf.map (fun p =>
    if p.1 == false && decide ((p.2 : Int) ≤ skipTol) then (true, p.2)
    else p)

/-- Merge adjacent runs of the same class (the `cigar_buffer2` loop). -/
def mergeRuns : List (Bool × Nat) → List (Bool × Nat)
  | [] => []
  | p :: rest =>
    match mergeRuns rest with
    | [] => [p]
    | q :: tail =>
      if p.1 == q.1 then (p.1, p.2 + q.2) :: tail else p :: q :: tail

/-- Walk the runs from the SAM POS, emitting `[pos, pos+n-1]` for match
runs and skipping `n` positions for skip runs. -/
def materialiseRegions (pos : Int) : List (Bool × Nat) → List (Int × Int)
  | [] => []
  | (b, n) :: rest =>
    if b then (pos, pos + (n : Int) - 1) :: materialiseRegions (pos + n) rest
    else materialiseRegions (pos + n) rest

/-- Drop regions spanning fewer than `map_tolerance` positions. -/
def mapTolFilter (mapTol : Int) (regs : List (Int × Int)) :
    List (Int × Int) :=
  regs.filter (fun r => !(decide (r.2 - r.1 + 1 < mapTol)))

/-- `Segment._get_region_list` from transcript.py, taking the already
split POS and CIGAR fields of the SAM line.  Returns the region list and
the `set_left_junction` / `set_right_junction` booleans. -/
def getRegionList (position : Int) (cigar : String)
    (skipTol mapTol : Int) :
    Except CigarErr (List (Int × Int) × Bool × Bool) :=
  match expandCigar cigar with
  | .error e => .error e
  | .ok expanded =>
    let v := expanded.filter
      (fun op => decide (op ∈ cigarMappingOps) || op == 'S')
    let leadingS := (v.takeWhile (fun c => c == 'S')).length
    let setLeft := if leadingS == 0 then false
      else decide ((leadingS : Int) > skipTol)
    let trailingS := (v.reverse.takeWhile (fun c => c == 'S')).length
    let setRight := if trailingS == 0 then false
      else decide ((trailingS : Int) > skipTol)
    let v2 := v.filter (fun op => !(op == 'S'))
    let bools := v2.map (fun op => decide (op ∈ cigarMapsBoth))
    let buf := mergeRuns (absorbSkips skipTol (rleRuns bools))
    let regs := materialiseRegions position buf
    .ok (mapTolFilter mapTol regs, setLeft, setRight)

/-- Errors of `Segment.__init__`: a CIGAR error or a SpliceList
construction error. -/
inductive SegErr where
  | cigar (e : CigarErr)
  | splice (e : SLError)
deriving DecidableEq

/-- The SpliceList built by `Segment.__init__` from the already split
QNAME, POS and CIGAR fields: `NoMappingError` when the filtered region
list is empty, else the `SpliceList` constructor on the region list with
the soft-clip junction flags. -/
def segmentSpliceList (qname : String) (position : Int) (cigar : String)
    (skipTol mapTol : Int) : Except SegErr SpliceList :=
  match getRegionList position cigar skipTol mapTol with
  | .error e => .error (.cigar e)
  | .ok (regs, sl, sr) =>
    if regs.isEmpty then .error (.cigar .noMapping)
    else
      match mkSpliceList qname regs sl sr with
      | .error e => .error (.splice e)
      | .ok s => .ok s

/-- One parsed GTF exon row: start (col 4), stop (col 5) and the extracted
`transcript_id`.  Claims about `Annotations.__init__` start from rows
"whose exon rows parse successfully", so parsing of the raw line is
abstracted. -/
structure GtfRow where
  start : Int
  stop : Int
  tid : String
deriving DecidableEq

/-- `sorted(pair)` on a two-element pair. -/
def sortPair (p : Int × Int) : Int × Int :=
  if p.1 ≤ p.2 then p else (p.2, p.1)

/-- The per-group reversal normalisation of `Annotations.__init__`:
applied iff the group's first exon has `start > stop`, in which case every
pair is sorted ascending and the group re-sorted by start. -/
def normaliseGroup (exons : List (Int × Int)) : List (Int × Int) :=
  match exons with
  | [] => exons
  | e :: _ => if e.2 < e.1 then sortExons (exons.map sortPair) else exons

/-- Closing one transcript group: build its SpliceList (both endpoint
junctions set) and return the values `exons[0][0]` and `exons[-1][1]`
used to update the precursor extent. -/
def closeGroup (current : String) (exons : List (Int × Int)) :
    Except SLError (SpliceList × Int × Int) :=
  let g := normaliseGroup exons
  match mkSpliceList current g true true with
  | .error e => .error e
  | .ok sl =>
    match g with
    | [] => .error .index
    | e :: _ =>
      match g.getLast? with
      | none => .error .index
      | some last => .ok (sl, e.1, last.2)

/-- `precursor_start = exons[0][0] if precursor_start == None else
min(precursor_start, exons[0][0])`. -/
def optMin (o : Option Int) (v : Int) : Int :=
  match o with
  | none => v
  | some w => min w v

def optMax (o : Option Int) (v : Int) : Int :=
  match o with
  | none => v
  | some w => max w v

/-- The grouping loop of `Annotations.__init__` over the parsed exon rows,
carrying the current transcript id, its accumulated exons, the precursor
extent and the variants built so far; the `[]` case is the for-else
clause closing the last group and appending the pre-mRNA SpliceList. -/
def annLoop (current : String) (exons : List (Int × Int))
    (pstart pend : Option Int) (variants : List SpliceList) :
    List GtfRow → Except SLError (List SpliceList)
  | [] =>
    match closeGroup current exons with
    | .error e => .error e
    | .ok (sl, s, e) =>
      match mkSpliceList "pre-mRNA" [(optMin pstart s, optMax pend e)]
          true true with
      | .error err => .error err
      | .ok pre => .ok (variants ++ [sl, pre])
  | row :: rest =>
    if row.tid == current then
      annLoop current (exons ++ [(row.start, row.stop)]) pstart pend
        variants rest
    else
      match closeGroup current exons with
      | .error e => .error e
      | .ok (sl, s, e) =>
        annLoop row.tid [(row.start, row.stop)] (some (optMin pstart s))
          (some (optMax pend e)) (variants ++ [sl]) rest

/-- `Annotations.__init__` from annotations.py, starting from the parsed
exon rows (`lines2`); `lines2[0][2]` on an empty row list is the
`IndexError`. -/
def annotInit (rows : List GtfRow) : Except SLError (List SpliceList) :=
  match rows with
  | [] => .error .index
  | r :: _ => annLoop r.tid [] none none [] rows

/-- Specification-side decomposition of the rows into maximal runs of
rows sharing the first row's transcript id (the consecutive grouping the
loop performs). -/
def groupRuns : List GtfRow → List (List GtfRow)
  | [] => []
  | r :: rest =>
    (r :: rest.takeWhile (fun x => x.tid == r.tid)) ::
      groupRuns (rest.dropWhile (fun x => x.tid == r.tid))
termination_by l => l.length
decreasing_by
  simp only [List.length_cons]
  exact Nat.lt_succ_of_le ((List.dropWhile_sublist _).length_le)

def rowPair (r : GtfRow) : Int × Int := (r.start, r.stop)

/-- The start position of the first exon of a normalised group. -/
def normFirstStart (g : List (Int × Int)) : Int :=
  match normaliseGroup g with
  | [] => 0
  | e :: _ => e.1

/-- The stop position of the last exon of a normalised group. -/
def normLastStop (g : List (Int × Int)) : Int :=
  match (normaliseGroup g).getLast? with
  | none => 0
  | some e => e.2

def listMin : List Int → Option Int
  | [] => none
  | v :: vs => some (vs.foldl min v)

def listMax : List Int → Option Int
  | [] => none
  | v :: vs => some (vs.foldl max v)

/-- The per-group first-exon starts, over the run decomposition. -/
def groupStarts (rows : List GtfRow) : List Int :=
  (groupRuns rows).map (fun g => normFirstStart (g.map rowPair))

/-- The per-group last-exon stops, over the run decomposition. -/
def groupStops (rows : List GtfRow) : List Int :=
  (groupRuns rows).map (fun g => normLastStop (g.map rowPair))

/-- One SAM alignment line, restricted to the fields the read grouping
reads: QNAME (field 0), FLAG (field 1) and RNEXT (field 6). -/
structure SamLine where
  qname : String
  flags : Nat
  rnext : String
deriving DecidableEq

def isGrouped (l : SamLine) : Bool := l.flags &&& 0x1 == 0x1

def isFirstSeg (l : SamLine) : Bool := l.flags &&& 0x40 == 0x40

def isLastSeg (l : SamLine) : Bool := l.flags &&& 0x80 == 0x80

/-- RNEXT resolution: `'='` means the line's own QNAME, `'*'` terminates
the chain, anything else is the QNAME to find next. -/
def nextRnext (l : SamLine) : Option String :=
  if l.rnext == "=" then some l.qname
  else if l.rnext == "*" then none
  else some l.rnext

/-- The `grouped_middle` scan of `_get_read_groups`: from index `i`
onwards (never restarting), consume the middle whose QNAME equals the
pending RNEXT, following the chain; `seen` holds the middles already
passed over.  Returns the grown read group, the pending RNEXT and the
remaining middles. -/
def scanMiddles (group : List SamLine) (rnext : Option String)
    (seen : List SamLine) :
    List SamLine → List SamLine × Option String × List SamLine
  | [] => (group, rnext, seen)
  | m :: rest =>
    match rnext with
    | none => (group, rnext, seen ++ m :: rest)
    | some r =>
      if m.qname == r then
        scanMiddles (group ++ [m]) (nextRnext m) seen rest
      else scanMiddles group rnext (seen ++ [m]) rest

/-- The `grouped_last` scan: pop the first last-segment whose QNAME
equals the pending RNEXT. -/
def takeLastMatch (rnext : Option String) :
    List SamLine → Option (SamLine × List SamLine)
  | [] => none
  | l :: rest =>
    match rnext with
    | none => none
    | some r =>
      if l.qname == r then some (l, rest)
      else (takeLastMatch rnext rest).map (fun p => (p.1, l :: p.2))

/-- The outer loop of `_get_read_groups` over the first-in-template
lines.  Returns the read groups, the orphaned firsts, and the leftover
middles and lasts. -/
def processFirsts :
    List SamLine → List SamLine → List SamLine →
    List (List SamLine) × List SamLine × List SamLine × List SamLine
  | [], middles, lasts => ([], [], middles, lasts)
  | f :: fs, middles, lasts =>
    let s := scanMiddles [f] (nextRnext f) [] middles
    match takeLastMatch s.2.1 lasts with
    | some (l, lasts') =>
      let t := processFirsts fs s.2.2 lasts'
      ((s.1 ++ [l]) :: t.1, t.2.1, t.2.2.1, t.2.2.2)
    | none =>
      if s.1.length == 1 then
        let t := processFirsts fs s.2.2 lasts
        (t.1, f :: t.2.1, t.2.2.1, t.2.2.2)
      else
        let t := processFirsts fs s.2.2 lasts
        (s.1 :: t.1, t.2.1, t.2.2.1, t.2.2.2)

/-- `_get_read_groups` from transcript.py (the lines are taken already
stripped): proper read groups first, then ungrouped singletons, then
orphan singletons (orphaned firsts, leftover middles, leftover lasts). -/
def getReadGroups (alignments : List SamLine) : List (List SamLine) :=
  let ungrouped := alignments.filter (fun l => !(isGrouped l))
  let grouped := alignments.filter isGrouped
  let firsts := grouped.filter isFirstSeg
  let lasts := grouped.filter isLastSeg
  let middles := grouped.filter
    (fun l => !(isFirstSeg l) && !(isLastSeg l))
  let t := processFirsts firsts middles lasts
  t.1 ++ ungrouped.map (fun a => [a]) ++
    (t.2.1 ++ t.2.2.1 ++ t.2.2.2).map (fun a => [a])

/-! Concrete inputs used by the counterexamples and witnesses. -/

/-- A merged read-pair SpliceList whose two boundary junctions carry
complement cross-references, slightly misaligned against the annotation
`NM_A` built from exons (1,8), (10,11), (13,30). -/
def readPairSL : SpliceList :=
  ⟨"read",
   [Component.region ⟨1, 8⟩,
    Component.junction ⟨10, JKind.tEnd, true, true⟩,
    Component.junction ⟨12, JKind.tStart, true, true⟩,
    Component.region ⟨13, 20⟩],
   [⟨1, 8⟩, ⟨13, 20⟩],
   [⟨10, JKind.tEnd, true, true⟩, ⟨12, JKind.tStart, true, true⟩]⟩

/-- A merged transcript SpliceList with two complement junction pairs
close together, as produced by joining three segments whose edges were
soft-clip marked. -/
def mergedSL : SpliceList :=
  ⟨"r1,r2,r3",
   [Component.region ⟨5, 10⟩,
    Component.junction ⟨10, JKind.tEnd, true, true⟩,
    Component.junction ⟨12, JKind.tStart, true, true⟩,
    Component.region ⟨12, 13⟩,
    Component.junction ⟨13, JKind.tEnd, true, true⟩,
    Component.junction ⟨15, JKind.tStart, true, true⟩,
    Component.region ⟨15, 20⟩],
   [⟨5, 10⟩, ⟨12, 13⟩, ⟨15, 20⟩],
   [⟨10, JKind.tEnd, true, true⟩, ⟨12, JKind.tStart, true, true⟩,
    ⟨13, JKind.tEnd, true, true⟩, ⟨15, JKind.tStart, true, true⟩]⟩

/-- GTF rows of one transcript whose first exon is not its leftmost and
whose last exon is not its rightmost. -/
def rowsWideFirst : List GtfRow := [⟨100, 200, "t"⟩, ⟨10, 50, "t"⟩]

/-- GTF rows of one transcript whose first exon is forward but whose
second exon is reversed. -/
def rowsLateReversed : List GtfRow := [⟨10, 50, "t"⟩, ⟨200, 100, "t"⟩]

/-- A SAM line carrying flags 0x1, 0x40 and 0x80 together, with RNEXT
`'='`. -/
def bothBitsLine : SamLine := ⟨"q", 193, "="⟩

/-- C1 counterexample: a single alignment line whose FLAG carries 0x1,
0x40 and 0x80 at once is listed both as a first and as a last segment,
matches itself through its RNEXT of `'='`, and comes out duplicated, so
the multiset union of the groups is not the input lines. -/
theorem c1_counterexample :
    Multiset.ofList (getReadGroups [bothBitsLine]).flatten ≠
      Multiset.ofList [bothBitsLine] := by decide

/-- C2 counterexample: against the annotation built from exons (1,8),
(10,11), (13,30), the read-pair SpliceList with complement junctions at
10 (end) and 12 (start) is contained at tolerance 1 but not at
tolerance 2: the extra matches recorded at the larger tolerance scramble
the complement-pair adjacency check on `match_order`. -/
theorem c2_counterexample :
    (mkSpliceList "NM_A" [(1, 8), (10, 11), (13, 30)] true true).toOption.bind
        (fun s => s.contains readPairSL 1) = some true ∧
    (mkSpliceList "NM_A" [(1, 8), (10, 11), (13, 30)] true true).toOption.bind
        (fun s => s.contains readPairSL 2) = some false := by decide

/-- C3 counterexample: a SpliceList with two complement junction pairs
within tolerance of each other fails `contains` against itself at
tolerance 3, because each complement junction matches both pairs and the
recorded `match_order` pairs are no longer adjacent. -/
theorem c3_counterexample : mergedSL.contains mergedSL 3 = some false := by
  decide

/-- C4 counterexample: for exon rows (100,200) then (10,50) of one
transcript, the synthesized pre-mRNA region is (100,50) — taken from the
group's first exon's start and last exon's stop — not the span
(10,200) of the minimum start and maximum stop over all exon rows. -/
theorem c4_counterexample :
    ((annotInit rowsWideFirst).toOption.bind List.getLast?).map
        SpliceList.regions = some [⟨100, 50⟩] ∧
    ((annotInit rowsWideFirst).toOption.bind List.getLast?).map
        SpliceList.regions ≠ some [⟨10, 200⟩] := by decide

/-- C5 counterexample: for exon rows (10,50) then (200,100) of one
transcript, the reversed second exon is passed through unnormalised (the
reversal check looks only at the group's first exon), so the variant's
SpliceList holds the region (200,100) rather than (100,200). -/
theorem c5_counterexample :
    ((annotInit rowsLateReversed).toOption.bind List.head?).map
        SpliceList.regions = some [⟨10, 50⟩, ⟨200, 100⟩] ∧
    ((annotInit rowsLateReversed).toOption.bind List.head?).map
        SpliceList.regions ≠ some [⟨10, 50⟩, ⟨100, 200⟩] := by decide

/-- C8: the CIGAR string `"3M1I2D4M"` expands to `"MMMIDDMMMM"`, and the
region-list derivation at POS 100 with `skip_tolerance = 2` and
`map_tolerance = 0` yields exactly the region (100,108) with neither
junction flag set: the length-2 deletion run is absorbed. -/
theorem c8_cigar_expansion_example :
    expandCigar "3M1I2D4M" = .ok "MMMIDDMMMM".toList ∧
    getRegionList 100 "3M1I2D4M" 2 0 = .ok ([(100, 108)], false, false) :=
  ⟨rfl, rfl⟩

/-- The overlap scan returns true iff some adjacent pair of the list has
`next.start ≤ this.stop`. -/
theorem overlapAdjacent_iff (xs : List (Int × Int)) :
    overlapAdjacent xs = true ↔
      ∃ i a b, xs[i]? = some a ∧ xs[i + 1]? = some b ∧ b.1 ≤ a.2 := by
  induction xs with
  | nil =>
    constructor
    · intro h; simp [overlapAdjacent] at h
    · rintro ⟨i, x, y, h1, h2, h3⟩; simp at h1
  | cons a rest ih =>
    cases rest with
    | nil =>
      constructor
      · intro h; simp [overlapAdjacent] at h
      · rintro ⟨i, x, y, h1, h2, h3⟩
        rcases i with _ | i
        · simp at h2
        · simp at h1
    | cons b rest2 =>
      rw [show overlapAdjacent (a :: b :: rest2) =
            (decide (b.1 ≤ a.2) || overlapAdjacent (b :: rest2)) from rfl]
      simp only [Bool.or_eq_true, decide_eq_true_eq, ih]
      constructor
      · rintro (h | ⟨i, x, y, h1, h2, h3⟩)
        · exact ⟨0, a, b, by simp, by simp, h⟩
        · exact ⟨i + 1, x, y, by simpa using h1, by simpa using h2, h3⟩
      · rintro ⟨i, x, y, h1, h2, h3⟩
        rcases i with _ | i
        · left
          simp only [List.getElem?_cons_zero, Option.some.injEq] at h1
          simp only [List.getElem?_cons_succ, List.getElem?_cons_zero,
            Option.some.injEq] at h2
          subst h1; subst h2; exact h3
        · right
          exact ⟨i, x, y, by simpa using h1, by simpa using h2, h3⟩

/-- With no adjacent overlap in the sorted exons, the constructor never
raises `OverlappingExonsError`. -/
theorem mkSpliceList_ne_overlap (identifier : String)
    (exons : List (Int × Int)) (l r : Bool)
    (h : overlapAdjacent (sortExons exons) = false) :
    mkSpliceList identifier exons l r ≠ .error .overlapping := by
  unfold mkSpliceList
  simp only [h, Bool.false_eq_true, if_false]
  split <;> rename_i hs1
  · split at hs1
    · split at hs1
      · injection hs1 with he; cases he; simp
      · cases hs1
    · cases hs1
  · split <;> rename_i hs2
    · split at hs2
      · split at hs2
        · injection hs2 with he; cases he; simp
        · cases hs2
      · cases hs2
    · simp

/-- C7: the SpliceList constructor raises `OverlappingExonsError` exactly
when some adjacent pair (a, b) of the exon list sorted by start satisfies
`a.stop ≥ b.start`; with no such pair it never raises it. -/
theorem c7_overlap_error_iff (identifier : String)
    (exons : List (Int × Int)) (l r : Bool) :
    mkSpliceList identifier exons l r = .error .overlapping ↔
      ∃ i a b, (sortExons exons)[i]? = some a ∧
        (sortExons exons)[i + 1]? = some b ∧ b.1 ≤ a.2 := by
  rw [← overlapAdjacent_iff]
  constructor
  · intro h
    by_contra hno
    exact mkSpliceList_ne_overlap identifier exons l r
      (Bool.not_eq_true _ ▸ hno) h
  · intro h
    unfold mkSpliceList
    simp only [h, if_true]

theorem length_insertLe (le : α → α → Bool) (x : α) (l : List α) :
    (insertLe le x l).length = l.length + 1 := by
  induction l with
  | nil => rfl
  | cons y ys ih =>
    unfold insertLe
    split <;> simp [ih]

theorem length_sortLe (le : α → α → Bool) (l : List α) :
    (sortLe le l).length = l.length := by
  induction l with
  | nil => rfl
  | cons x xs ih => simp [sortLe, length_insertLe, ih]

theorem length_sortExons (exons : List (Int × Int)) :
    (sortExons exons).length = exons.length := length_sortLe _ _

/-- A strict gap between adjacent exons means the overlap scan passes. -/
theorem overlapAdjacent_eq_false (xs : List (Int × Int))
    (h : List.Chain' (fun a b => a.2 < b.1) xs) :
    overlapAdjacent xs = false := by
  induction xs with
  | nil => rfl
  | cons a rest ih =>
    cases rest with
    | nil => rfl
    | cons b rest2 =>
      rw [List.chain'_cons] at h
      rw [show overlapAdjacent (a :: b :: rest2) =
            (decide (b.1 ≤ a.2) || overlapAdjacent (b :: rest2)) from rfl]
      rw [ih h.2]
      simp only [Bool.or_false, decide_eq_false_iff_not]
      omega

theorem regionsOf_flatMap (l : List (Int × Int)) :
    (regionsOf (l.flatMap exonTriple)).length = l.length := by
  induction l with
  | nil => rfl
  | cons e rest ih =>
    simp only [List.flatMap_cons, regionsOf, List.filterMap_append] at *
    simp [exonTriple, ih]

theorem length_flatMap_triple (l : List (Int × Int)) :
    (l.flatMap exonTriple).length = 3 * l.length := by
  induction l with
  | nil => rfl
  | cons e rest ih =>
    rw [List.flatMap_cons, List.length_append, ih]
    have h3 : (exonTriple e).length = 3 := rfl
    rw [h3, List.length_cons]
    omega

theorem setLastHC_length (l l' : List Component)
    (h : setLastHC l = some l') : l'.length = l.length := by
  induction l generalizing l' with
  | nil => simp [setLastHC] at h
  | cons c rest ih =>
    cases rest with
    | nil =>
      simp only [setLastHC, Option.some.injEq] at h
      simp [← h]
    | cons c2 rest2 =>
      rw [show setLastHC (c :: c2 :: rest2) =
            (setLastHC (c2 :: rest2)).map (fun l => c :: l) from rfl] at h
      cases hs : setLastHC (c2 :: rest2) with
      | none => rw [hs] at h; simp at h
      | some l2 =>
        rw [hs] at h
        injection h with h2
        subst h2
        simp [ih l2 hs]

theorem setLastHC_of_ne_nil (l : List Component) (h : l ≠ []) :
    ∃ l', setLastHC l = some l' := by
  induction l with
  | nil => exact absurd rfl h
  | cons c rest ih =>
    cases rest with
    | nil => exact ⟨[c.setHC], rfl⟩
    | cons c2 rest2 =>
      obtain ⟨l2, hl2⟩ := ih (by simp)
      exact ⟨c :: l2, by
        rw [show setLastHC (c :: c2 :: rest2) =
              (setLastHC (c2 :: rest2)).map (fun l => c :: l) from rfl, hl2]
        rfl⟩

theorem regionsOf_cons_junction (j : Junction) (l : List Component) :
    regionsOf (Component.junction j :: l) = regionsOf l := rfl

theorem regionsOf_cons_region (r : Region) (l : List Component) :
    regionsOf (Component.region r :: l) = r :: regionsOf l := rfl

theorem regionsOf_append (l1 l2 : List Component) :
    regionsOf (l1 ++ l2) = regionsOf l1 ++ regionsOf l2 :=
  List.filterMap_append l1 l2 _

/-- Computed form of the constructor with neither junction flag, under
no overlap. -/
theorem mkSpliceList_ff (identifier : String) (exons : List (Int × Int))
    (hno : overlapAdjacent (sortExons exons) = false) :
    mkSpliceList identifier exons false false =
      Except.ok ⟨identifier,
        (((sortExons exons).flatMap exonTriple).drop 1).dropLast,
        regionsOf ((((sortExons exons).flatMap exonTriple).drop 1).dropLast),
        junctionsOf ((((sortExons exons).flatMap exonTriple).drop 1).dropLast)⟩ := by
  unfold mkSpliceList
  simp only [hno, Bool.false_eq_true, if_false]

/-- Computed form of the constructor with both junction flags, under no
overlap and nonempty components. -/
theorem mkSpliceList_tt (identifier : String) (exons : List (Int × Int))
    (hno : overlapAdjacent (sortExons exons) = false)
    (c : Component) (cs : List Component)
    (hc : (sortExons exons).flatMap exonTriple = c :: cs)
    (l' : List Component) (hl' : setLastHC (c.setHC :: cs) = some l') :
    mkSpliceList identifier exons true true =
      Except.ok ⟨identifier, l', regionsOf l', junctionsOf l'⟩ := by
  unfold mkSpliceList
  simp only [hno, Bool.false_eq_true, if_false, if_true, hc, hl']

/-- C6: from `n ≥ 1` exons with strict gaps between adjacent sorted
exons, the constructor succeeds; with neither endpoint junction flag the
component list has `3n − 2` entries of which exactly `n` are Regions and
the first and last components are Regions, and with both flags set it has
`3n` entries. -/
theorem c6_component_counts (identifier : String) (exons : List (Int × Int))
    (hne : exons ≠ [])
    (hchain : List.Chain' (fun a b => a.2 < b.1) (sortExons exons)) :
    ((mkSpliceList identifier exons false false).toOption.map (fun sl =>
        (sl.components.length, sl.regions.length,
         sl.components.head?.map Component.isRegion,
         sl.components.getLast?.map Component.isRegion)) =
      some (3 * exons.length - 2, exons.length, some true, some true)) ∧
    ((mkSpliceList identifier exons true true).toOption.map
        (fun sl => sl.components.length) = some (3 * exons.length)) := by
  have hno : overlapAdjacent (sortExons exons) = false :=
    overlapAdjacent_eq_false _ hchain
  have hlen : (sortExons exons).length = exons.length := length_sortExons exons
  rcases hsv : sortExons exons with _ | ⟨e, tail⟩
  · rw [hsv] at hlen
    exact absurd (List.length_eq_zero.mp hlen.symm) hne
  · rw [hsv] at hlen
    constructor
    · rw [mkSpliceList_ff identifier exons hno, hsv]
      rcases htail : tail with _ | ⟨e2, tail2⟩
      · subst htail
        rw [← hlen]
        simp [exonTriple, Except.toOption, regionsOf, Component.isRegion,
          List.dropLast]
      · obtain ⟨mid, elast, hconcat⟩ :
            ∃ mid elast, e2 :: tail2 = mid ++ [elast] := by
          rcases List.eq_nil_or_concat (e2 :: tail2) with hnil | ⟨L, b, hLb⟩
          · simp at hnil
          · exact ⟨L, b, by simpa [List.concat_eq_append] using hLb⟩
        rw [hconcat]
        have hexp : (e :: (mid ++ [elast])).flatMap exonTriple =
            Component.junction ⟨e.1, JKind.tStart, false, false⟩ ::
            Component.region ⟨e.1, e.2⟩ ::
            Component.junction ⟨e.2, JKind.tEnd, false, false⟩ ::
            (mid.flatMap exonTriple ++
              (Component.junction ⟨elast.1, JKind.tStart, false, false⟩ ::
               Component.region ⟨elast.1, elast.2⟩ ::
               [Component.junction ⟨elast.2, JKind.tEnd, false, false⟩])) := by
          rw [List.flatMap_cons, List.flatMap_append]
          rfl
        rw [hexp]
        have hdrop : (Component.junction ⟨e.1, JKind.tStart, false, false⟩ ::
            Component.region ⟨e.1, e.2⟩ ::
            Component.junction ⟨e.2, JKind.tEnd, false, false⟩ ::
            (mid.flatMap exonTriple ++
              (Component.junction ⟨elast.1, JKind.tStart, false, false⟩ ::
               Component.region ⟨elast.1, elast.2⟩ ::
               [Component.junction ⟨elast.2, JKind.tEnd, false, false⟩]))).drop 1 =
            Component.region ⟨e.1, e.2⟩ ::
            Component.junction ⟨e.2, JKind.tEnd, false, false⟩ ::
            (mid.flatMap exonTriple ++
              (Component.junction ⟨elast.1, JKind.tStart, false, false⟩ ::
               Component.region ⟨elast.1, elast.2⟩ ::
               [Component.junction ⟨elast.2, JKind.tEnd, false, false⟩])) := rfl
        rw [hdrop]
        have hassoc : Component.region ⟨e.1, e.2⟩ ::
            Component.junction ⟨e.2, JKind.tEnd, false, false⟩ ::
            (mid.flatMap exonTriple ++
              (Component.junction ⟨elast.1, JKind.tStart, false, false⟩ ::
               Component.region ⟨elast.1, elast.2⟩ ::
               [Component.junction ⟨elast.2, JKind.tEnd, false, false⟩])) =
            (Component.region ⟨e.1, e.2⟩ ::
             Component.junction ⟨e.2, JKind.tEnd, false, false⟩ ::
             (mid.flatMap exonTriple ++
               [Component.junction ⟨elast.1, JKind.tStart, false, false⟩,
                Component.region ⟨elast.1, elast.2⟩])) ++
            [Component.junction ⟨elast.2, JKind.tEnd, false, false⟩] := by
          simp
        rw [hassoc, List.dropLast_concat]
        have hlen2 : exons.length = mid.length + 2 := by
          rw [← hlen, htail, hconcat]
          simp
        simp only [Except.toOption, Option.map_some']
        rw [hlen2]
        refine congrArg some ?_
        refine Prod.ext ?_ (Prod.ext ?_ (Prod.ext ?_ ?_))
        · simp only [List.length_cons, List.length_append,
            length_flatMap_triple]
          simp; omega
        · simp only [regionsOf_cons_region, regionsOf_cons_junction,
            regionsOf_append, List.length_cons, List.length_append,
            regionsOf_flatMap]
          simp [regionsOf]
        · rfl
        · rw [show (Component.region ⟨e.1, e.2⟩ ::
              Component.junction ⟨e.2, JKind.tEnd, false, false⟩ ::
              (mid.flatMap exonTriple ++
                [Component.junction ⟨elast.1, JKind.tStart, false, false⟩,
                 Component.region ⟨elast.1, elast.2⟩])) =
              (Component.region ⟨e.1, e.2⟩ ::
               Component.junction ⟨e.2, JKind.tEnd, false, false⟩ ::
               (mid.flatMap exonTriple ++
                 [Component.junction ⟨elast.1, JKind.tStart, false, false⟩])) ++
              [Component.region ⟨elast.1, elast.2⟩] from by simp]
          rw [List.getLast?_concat]
          rfl
    · have hcons : (sortExons exons).flatMap exonTriple =
          Component.junction ⟨e.1, JKind.tStart, false, false⟩ ::
          (Component.region ⟨e.1, e.2⟩ ::
           Component.junction ⟨e.2, JKind.tEnd, false, false⟩ ::
           tail.flatMap exonTriple) := by
        rw [hsv]; rfl
      obtain ⟨l', hl'⟩ := setLastHC_of_ne_nil
        ((Component.junction ⟨e.1, JKind.tStart, false, false⟩).setHC ::
         (Component.region ⟨e.1, e.2⟩ ::
          Component.junction ⟨e.2, JKind.tEnd, false, false⟩ ::
          tail.flatMap exonTriple)) (by simp)
      rw [mkSpliceList_tt identifier exons hno _ _ hcons l' hl']
      have hlen3 := setLastHC_length _ _ hl'
      simp only [Except.toOption, Option.map_some']
      refine congrArg some ?_
      rw [hlen3]
      have hfm := length_flatMap_triple tail
      simp only [List.length_cons] at *
      omega

/-- The overhang run scan is monotone in the tolerance: the run lengths do
not depend on the tolerance, only the comparison does. -/
theorem overhangViolation_succ (k : Int) :
    ∀ (l : List Int) (run last : Int),
      overhangViolation k l run last = false →
      overhangViolation (k + 1) l run last = false := by
  intro l
  induction l with
  | nil => intro run last _; rfl
  | cons pos rest ih =>
    intro run last h
    simp only [overhangViolation] at h ⊢
    cases hpl : pos - last == 1 with
    | false =>
      simp only [hpl, Bool.false_eq_true, if_false] at h ⊢
      by_cases hr : (1 : Int) > k
      · rw [if_pos (decide_eq_true hr)] at h
        exact absurd h (by simp)
      · rw [if_neg (by simpa using hr)] at h
        rw [if_neg (by simp; omega)]
        exact ih _ _ h
    | true =>
      simp only [hpl, if_true] at h ⊢
      by_cases hr : run + 1 > k
      · rw [if_pos (decide_eq_true hr)] at h
        exact absurd h (by simp)
      · rw [if_neg (by simpa using hr)] at h
        rw [if_neg (by simp; omega)]
        exact ih _ _ h

/-- A junction with a match at tolerance `k` still has one at `k + 1`. -/
theorem matchIndices_succ_ne_nil (k : Int) (js : List Junction)
    (j : Junction) (h : matchIndices k js j ≠ []) :
    matchIndices (k + 1) js j ≠ [] := by
  unfold matchIndices at h ⊢
  intro hnil
  apply h
  rw [List.map_eq_nil_iff] at hnil ⊢
  rw [List.filter_eq_nil_iff] at hnil ⊢
  intro a ha
  have hthis := hnil a ha
  simp only [Bool.and_eq_true, decide_eq_true_eq, not_and] at hthis ⊢
  rintro ⟨h1, h2⟩ h3
  exact hthis ⟨h1, by omega⟩ (by omega)

/-- With no complement junctions in the probe, a recorded match order is
empty. -/
theorem matchLoop_no_complement (k : Int) (js : List Junction) :
    ∀ (ojs : List Junction), (∀ j ∈ ojs, j.complementSet = false) →
      ∀ mo, matchLoop k js ojs = some mo → mo = [] := by
  intro ojs
  induction ojs with
  | nil =>
    intro _ mo h
    rw [show matchLoop k js [] = some [] from rfl] at h
    exact (Option.some.inj h).symm
  | cons j rest ih =>
    intro hcomp mo h
    rw [show matchLoop k js (j :: rest) =
          (if (matchIndices k js j).isEmpty then none
           else (matchLoop k js rest).map
             (fun mo => (if j.complementSet then matchIndices k js j
                         else []) ++ mo)) from rfl] at h
    by_cases hms : (matchIndices k js j).isEmpty = true
    · rw [if_pos hms] at h; exact absurd h (by simp)
    · rw [if_neg hms] at h
      cases hrest : matchLoop k js rest with
      | none => rw [hrest] at h; exact absurd h (by simp)
      | some mo2 =>
        rw [hrest] at h
        simp only [Option.map_some', Option.some.injEq] at h
        have hj : j.complementSet = false := hcomp j (by simp)
        rw [hj] at h
        simp only [Bool.false_eq_true, if_false, List.nil_append] at h
        rw [← h]
        exact ih (fun x hx => hcomp x (by simp [hx])) mo2 hrest

/-- The junction loop still succeeds at tolerance `k + 1` when it
succeeded at `k`. -/
theorem matchLoop_succ (k : Int) (js : List Junction) :
    ∀ (ojs : List Junction) (mo : List Int),
      matchLoop k js ojs = some mo →
      ∃ mo', matchLoop (k + 1) js ojs = some mo' := by
  intro ojs
  induction ojs with
  | nil => intro mo _; exact ⟨[], rfl⟩
  | cons j rest ih =>
    intro mo h
    rw [show matchLoop k js (j :: rest) =
          (if (matchIndices k js j).isEmpty then none
           else (matchLoop k js rest).map
             (fun mo => (if j.complementSet then matchIndices k js j
                         else []) ++ mo)) from rfl] at h
    rw [show matchLoop (k + 1) js (j :: rest) =
          (if (matchIndices (k + 1) js j).isEmpty then none
           else (matchLoop (k + 1) js rest).map
             (fun mo => (if j.complementSet then matchIndices (k + 1) js j
                         else []) ++ mo)) from rfl]
    by_cases hms : (matchIndices k js j).isEmpty = true
    · rw [if_pos hms] at h; exact absurd h (by simp)
    · rw [if_neg hms] at h
      have hne : matchIndices (k + 1) js j ≠ [] :=
        matchIndices_succ_ne_nil k js j
          (fun hx => hms (by simp [List.isEmpty_iff, hx]))
      rw [if_neg (by simpa [List.isEmpty_iff] using hne)]
      cases hrest : matchLoop k js rest with
      | none => rw [hrest] at h; exact absurd h (by simp)
      | some mo2 =>
        obtain ⟨mo2', hmo2'⟩ := ih mo2 hrest
        rw [hmo2']
        exact ⟨_, rfl⟩

/-- C2 (amended): containment is monotone in the junction tolerance for
probes none of whose junctions carries a complement cross-reference. -/
theorem c2_tolerance_monotone (s o : SpliceList)
    (hcomp : ∀ j ∈ o.junctions, j.complementSet = false)
    (k : Int) (_hk : 0 ≤ k)
    (h : s.contains o k = some true) : s.contains o (k + 1) = some true := by
  unfold SpliceList.contains at h ⊢
  by_cases he : (o.regions.isEmpty || s.regions.isEmpty) = true
  · rw [if_pos he] at h; exact absurd h (by simp)
  · rw [if_neg he] at h ⊢
    by_cases hov :
        overhangViolation k (overhangList s.regions o.regions) 0 (-1) = true
    · rw [if_pos hov] at h; exact absurd h (by simp)
    · rw [if_neg hov] at h
      have hov1 : overhangViolation (k + 1)
          (overhangList s.regions o.regions) 0 (-1) = false :=
        overhangViolation_succ k _ 0 (-1) (Bool.not_eq_true _ ▸ hov)
      rw [if_neg (by simp [hov1])]
      cases hml : matchLoop k s.junctions o.junctions with
      | none => rw [hml] at h; exact absurd h (by simp)
      | some mo =>
        obtain ⟨mo', hml'⟩ := matchLoop_succ k s.junctions o.junctions mo hml
        have hmo' : mo' = [] :=
          matchLoop_no_complement (k + 1) s.junctions o.junctions hcomp
            mo' hml'
        rw [hml', hmo']
        rfl

/-- The overhang of a region list against itself is empty. -/
theorem overhangList_self (rs : List Region) : overhangList rs rs = [] := by
  unfold overhangList
  rw [List.filter_eq_nil_iff.mpr ?_]
  · rfl
  · intro a ha
    simp [ha]

/-- Every junction of the list matches itself at any tolerance `≥ 0`. -/
theorem matchIndices_self_ne_nil (tol : Int) (js : List Junction)
    (j : Junction) (hj : j ∈ js) (ht : 0 ≤ tol) :
    matchIndices tol js j ≠ [] := by
  unfold matchIndices
  obtain ⟨i, hi, hget⟩ := List.mem_iff_getElem.mp hj
  have henum : (i, j) ∈ js.enum :=
    List.mk_mem_enum_iff_getElem?.mpr (by
      rw [List.getElem?_eq_getElem hi, hget])
  have hmem : (i, j) ∈ js.enum.filter (fun p =>
      decide (p.2.jtype = j.jtype) &&
      decide (j.position - tol ≤ p.2.position) &&
      decide (p.2.position ≤ j.position + tol)) := by
    rw [List.mem_filter]
    refine ⟨henum, ?_⟩
    simp only [Bool.and_eq_true, decide_eq_true_eq]
    exact ⟨⟨by simp, by omega⟩, by omega⟩
  intro hnil
  rw [List.map_eq_nil_iff] at hnil
  rw [hnil] at hmem
  exact absurd hmem (List.not_mem_nil _)

/-- The junction loop run by a SpliceList against its own junctions
succeeds with an empty match order when no junction has a complement. -/
theorem matchLoop_self (tol : Int) (js : List Junction) (ht : 0 ≤ tol) :
    ∀ ojs : List Junction, (∀ j ∈ ojs, j ∈ js) →
      (∀ j ∈ ojs, j.complementSet = false) →
      matchLoop tol js ojs = some [] := by
  intro ojs
  induction ojs with
  | nil => intro _ _; rfl
  | cons j rest ih =>
    intro hsub hcomp
    rw [show matchLoop tol js (j :: rest) =
          (if (matchIndices tol js j).isEmpty then none
           else (matchLoop tol js rest).map
             (fun mo => (if j.complementSet then matchIndices tol js j
                         else []) ++ mo)) from rfl]
    have hne : matchIndices tol js j ≠ [] :=
      matchIndices_self_ne_nil tol js j (hsub j (by simp)) ht
    rw [if_neg (by simpa [List.isEmpty_iff] using hne)]
    rw [ih (fun x hx => hsub x (by simp [hx]))
        (fun x hx => hcomp x (by simp [hx]))]
    rw [hcomp j (by simp)]
    rfl

/-- C3 (amended): a SpliceList with at least one region and no complement
cross-references on its junctions contains itself at every tolerance
`≥ 0`. -/
theorem c3_self_containment (s : SpliceList) (h1 : s.regions ≠ [])
    (h2 : ∀ j ∈ s.junctions, j.complementSet = false)
    (tol : Int) (ht : 0 ≤ tol) : s.contains s tol = some true := by
  unfold SpliceList.contains
  rw [if_neg (by simp [List.isEmpty_iff, h1])]
  rw [overhangList_self]
  rw [show overhangViolation tol [] 0 (-1) = false from rfl]
  rw [if_neg (by simp)]
  rw [matchLoop_self tol s.junctions ht s.junctions (fun j hj => hj) h2]
  rfl

/-- A one region SpliceList with no junctions. -/
def plainSL : SpliceList := ⟨"v", [Component.region ⟨1, 5⟩], [⟨1, 5⟩], []⟩

/-- An annotation style SpliceList: one region, both endpoint junctions,
no complement cross-references. -/
def endpointSL : SpliceList :=
  ⟨"v2",
   [Component.junction ⟨1, JKind.tStart, true, false⟩,
    Component.region ⟨1, 5⟩,
    Component.junction ⟨5, JKind.tEnd, true, false⟩],
   [⟨1, 5⟩],
   [⟨1, JKind.tStart, true, false⟩, ⟨5, JKind.tEnd, true, false⟩]⟩

/-- Witness for the amended C2 theorem at a concrete input. -/
theorem c2_witness :
    (∀ j ∈ plainSL.junctions, j.complementSet = false) ∧ (0 : Int) ≤ 0 ∧
    plainSL.contains plainSL 0 = some true ∧
    plainSL.contains plainSL (0 + 1) = some true :=
  ⟨by decide, by decide, by decide,
   c2_tolerance_monotone plainSL plainSL (by decide) 0 (by decide)
     (by decide)⟩

/-- Witness for the amended C3 theorem at a concrete input. -/
theorem c3_witness :
    endpointSL.regions ≠ [] ∧
    (∀ j ∈ endpointSL.junctions, j.complementSet = false) ∧ (0 : Int) ≤ 5 ∧
    endpointSL.contains endpointSL 5 = some true :=
  ⟨by decide, by decide, by decide,
   c3_self_containment endpointSL (by decide) (by decide) 5 (by decide)⟩

/-- Witness for the C6 theorem at a concrete input. -/
theorem c6_witness :
    (([((1 : Int), (5 : Int)), (10, 20)] : List (Int × Int)) ≠ []) ∧
    List.Chain' (fun a b => a.2 < b.1)
      (sortExons [((1 : Int), (5 : Int)), (10, 20)]) ∧
    ((mkSpliceList "NM_X" [((1 : Int), (5 : Int)), (10, 20)] false
        false).toOption.map (fun sl =>
        (sl.components.length, sl.regions.length,
         sl.components.head?.map Component.isRegion,
         sl.components.getLast?.map Component.isRegion)) =
      some (4, 2, some true, some true)) ∧
    ((mkSpliceList "NM_X" [((1 : Int), (5 : Int)), (10, 20)] true
        true).toOption.map (fun sl => sl.components.length) = some 6) := by
  have hch : List.Chain' (fun a b => a.2 < b.1)
      (sortExons [((1 : Int), (5 : Int)), (10, 20)]) := by
    rw [show sortExons [((1 : Int), (5 : Int)), (10, 20)] =
          [(1, 5), (10, 20)] from rfl]
    refine List.chain'_cons.mpr ⟨by norm_num, ?_⟩
    simp
  have h := c6_component_counts "NM_X" [(1, 5), (10, 20)] (by decide) hch
  refine ⟨by decide, hch, ?_, ?_⟩
  · simpa using h.1
  · simpa using h.2

deriving instance DecidableEq for Except

/-- C9: for every parseable CIGAR, after restricting the expanded ops to
M, D, N, =, X and S, the left junction flag is set iff the ops begin with
a run of S strictly longer than `skip_tolerance`, and symmetrically on
the right; concretely, a CIGAR of 25S50M at POS 500 under tolerance 20
sets the left flag and the Segment's SpliceList starts with a Start-kind
Junction. -/
theorem c9_soft_clip_junctions :
    (∀ (pos skip mapT : Int) (cigar : String) (expanded : List Char)
        (regs : List (Int × Int)) (l r : Bool),
      0 ≤ skip →
      expandCigar cigar = .ok expanded →
      getRegionList pos cigar skip mapT = .ok (regs, l, r) →
      ((l = true ↔ skip <
          (((expanded.filter (fun op =>
              decide (op ∈ cigarMappingOps) || op == 'S')).takeWhile
            (fun c => c == 'S')).length : Int)) ∧
       (r = true ↔ skip <
          (((expanded.filter (fun op =>
              decide (op ∈ cigarMappingOps) || op == 'S')).reverse.takeWhile
            (fun c => c == 'S')).length : Int)))) ∧
    (getRegionList 500 "25S50M" 20 10 = .ok ([(500, 549)], true, false) ∧
     segmentSpliceList "q" 500 "25S50M" 20 10 = .ok
       ⟨"q",
        [Component.junction ⟨500, JKind.tStart, true, false⟩,
         Component.region ⟨500, 549⟩],
        [⟨500, 549⟩],
        [⟨500, JKind.tStart, true, false⟩]⟩) := by
  constructor
  · intro pos skip mapT cigar expanded regs l r hskip hexp hreg
    unfold getRegionList at hreg
    rw [hexp] at hreg
    simp only [Except.ok.injEq, Prod.mk.injEq] at hreg
    obtain ⟨-, hl, hr⟩ := hreg
    constructor
    · rw [← hl]
      cases hn : ((expanded.filter (fun op =>
          decide (op ∈ cigarMappingOps) || op == 'S')).takeWhile
            (fun c => c == 'S')).length with
      | zero => simp; omega
      | succ n => simp
    · rw [← hr]
      cases hn : ((expanded.filter (fun op =>
          decide (op ∈ cigarMappingOps) || op == 'S')).reverse.takeWhile
            (fun c => c == 'S')).length with
      | zero => simp; omega
      | succ n => simp
  · exact ⟨by decide, by decide⟩

/-- Witness for the general part of the C9 theorem at a concrete
input. -/
theorem c9_witness :
    (0 : Int) ≤ 20 ∧
    expandCigar "25S50M" =
      .ok (List.replicate 25 'S' ++ List.replicate 50 'M') ∧
    getRegionList 500 "25S50M" 20 10 = .ok ([(500, 549)], true, false) ∧
    ((true = true ↔ (20 : Int) <
        (((((List.replicate 25 'S' ++ List.replicate 50 'M')).filter
            (fun op => decide (op ∈ cigarMappingOps) || op == 'S')).takeWhile
          (fun c => c == 'S')).length : Int)) ∧
     (false = true ↔ (20 : Int) <
        (((((List.replicate 25 'S' ++ List.replicate 50 'M')).filter
            (fun op =>
              decide (op ∈ cigarMappingOps) || op == 'S')).reverse.takeWhile
          (fun c => c == 'S')).length : Int))) :=
  ⟨by decide, by decide, by decide,
   c9_soft_clip_junctions.1 500 20 10 "25S50M"
     (List.replicate 25 'S' ++ List.replicate 50 'M') [(500, 549)] true false
     (by decide) (by decide) (by decide)⟩

theorem rleRuns_pos : ∀ (bs : List Bool) (p : Bool × Nat),
    p ∈ rleRuns bs → 1 ≤ p.2 := by
  intro bs
  induction bs with
  | nil => intro p hp; simp [rleRuns] at hp
  | cons b rest ih =>
    intro p hp
    rw [show rleRuns (b :: rest) =
          (match rleRuns rest with
           | [] => [(b, 1)]
           | (b2, n) :: tail =>
             if b == b2 then (b, n + 1) :: tail
             else (b, 1) :: (b2, n) :: tail) from rfl] at hp
    cases hr : rleRuns rest with
    | nil =>
      rw [hr] at hp
      simp at hp
      simp [hp]
    | cons q tail =>
      obtain ⟨b2, n⟩ := q
      rw [hr] at hp
      dsimp only at hp
      by_cases hb : (b == b2) = true
      · rw [if_pos hb] at hp
        rcases List.mem_cons.mp hp with he | ht
        · simp [he]
        · exact ih p (hr ▸ List.mem_cons_of_mem _ ht)
      · rw [if_neg hb] at hp
        rcases List.mem_cons.mp hp with he | ht
        · simp [he]
        · exact ih p (hr ▸ ht)

theorem absorbSkips_pos (skipTol : Int) (l : List (Bool × Nat))
    (h : ∀ p ∈ l, 1 ≤ p.2) : ∀ p ∈ absorbSkips skipTol l, 1 ≤ p.2 := by
  intro p hp
  unfold absorbSkips at hp
  obtain ⟨q, hq, hfq⟩ := List.mem_map.mp hp
  have := h q hq
  split at hfq <;> simp [← hfq, this]

theorem mergeRuns_pos : ∀ (l : List (Bool × Nat)),
    (∀ p ∈ l, 1 ≤ p.2) → ∀ p ∈ mergeRuns l, 1 ≤ p.2 := by
  intro l
  induction l with
  | nil => intro _ p hp; simp [mergeRuns] at hp
  | cons q rest ih =>
    intro h p hp
    rw [show mergeRuns (q :: rest) =
          (match mergeRuns rest with
           | [] => [q]
           | q2 :: tail =>
             if q.1 == q2.1 then (q.1, q.2 + q2.2) :: tail
             else q :: q2 :: tail) from rfl] at hp
    cases hr : mergeRuns rest with
    | nil =>
      rw [hr] at hp
      simp at hp
      simp [hp, h q (by simp)]
    | cons q2 tail =>
      rw [hr] at hp
      dsimp only at hp
      have hrest : ∀ x ∈ rest, 1 ≤ x.2 := fun x hx => h x (by simp [hx])
      by_cases hb : (q.1 == q2.1) = true
      · rw [if_pos hb] at hp
        rcases List.mem_cons.mp hp with he | ht
        · have h1 := h q (by simp)
          simp [he]
          omega
        · exact ih hrest p (hr ▸ List.mem_cons_of_mem _ ht)
      · rw [if_neg hb] at hp
        rcases List.mem_cons.mp hp with he | ht
        · simp [he, h q (by simp)]
        · exact ih hrest p (hr ▸ ht)

theorem mergeRuns_alt : ∀ (l : List (Bool × Nat)),
    List.Chain' (fun a b => a.1 ≠ b.1) (mergeRuns l) := by
  intro l
  induction l with
  | nil => simp [mergeRuns]
  | cons q rest ih =>
    rw [show mergeRuns (q :: rest) =
          (match mergeRuns rest with
           | [] => [q]
           | q2 :: tail =>
             if q.1 == q2.1 then (q.1, q.2 + q2.2) :: tail
             else q :: q2 :: tail) from rfl]
    cases hr : mergeRuns rest with
    | nil => simp
    | cons q2 tail =>
      rw [hr] at ih
      dsimp only
      obtain ⟨hhead, htail⟩ := List.chain'_cons'.mp ih
      by_cases hb : (q.1 == q2.1) = true
      · rw [if_pos hb]
        refine List.chain'_cons'.mpr ⟨?_, htail⟩
        intro y hy
        have heq : q.1 = q2.1 := by simpa using hb
        simpa [heq] using hhead y hy
      · rw [if_neg hb]
        refine List.chain'_cons'.mpr ⟨?_, ih⟩
        intro y hy
        simp only [List.head?_cons, Option.mem_def, Option.some.injEq] at hy
        rw [← hy]
        simpa using hb

/-- Lower bound for the start of every region materialised from a run
list: the position, advanced past a leading skip run. -/
def startLB : List (Bool × Nat) → Int → Int
  | (false, n) :: _, pos => pos + n
  | _, pos => pos

theorem le_startLB (runs : List (Bool × Nat)) (pos : Int) :
    pos ≤ startLB runs pos := by
  unfold startLB
  split
  · omega
  · exact le_refl pos

theorem mat_mem : ∀ (runs : List (Bool × Nat)) (pos : Int) (rg : Int × Int),
    (∀ p ∈ runs, 1 ≤ p.2) → rg ∈ materialiseRegions pos runs →
    startLB runs pos ≤ rg.1 ∧ rg.1 ≤ rg.2 := by
  intro runs
  induction runs with
  | nil => intro pos rg _ hmem; simp [materialiseRegions] at hmem
  | cons p rest ih =>
    intro pos rg hpos hmem
    obtain ⟨b, n⟩ := p
    cases b
    · rw [show materialiseRegions pos ((false, n) :: rest) =
            materialiseRegions (pos + n) rest from rfl] at hmem
      have hrec := ih (pos + n) rg
        (fun q hq => hpos q (by simp [hq])) hmem
      have h2 := le_startLB rest (pos + n)
      refine ⟨?_, hrec.2⟩
      have h3 : startLB ((false, n) :: rest) pos = pos + n := rfl
      omega
    · rw [show materialiseRegions pos ((true, n) :: rest) =
            (pos, pos + (n : Int) - 1) ::
              materialiseRegions (pos + n) rest from rfl] at hmem
      have hn : 1 ≤ n := hpos (true, n) (by simp)
      have hlb : startLB ((true, n) :: rest) pos = pos := rfl
      rcases List.mem_cons.mp hmem with he | hmem2
      · rw [he]
        constructor
        · rw [hlb]
        · simp; omega
      · have hrec := ih (pos + n) rg
          (fun q hq => hpos q (by simp [hq])) hmem2
        have h2 := le_startLB rest (pos + n)
        refine ⟨?_, hrec.2⟩
        omega

theorem mat_pairwise : ∀ (runs : List (Bool × Nat)) (pos : Int),
    (∀ p ∈ runs, 1 ≤ p.2) →
    List.Chain' (fun a b => a.1 ≠ b.1) runs →
    List.Pairwise (fun a b : Int × Int => a.2 + 1 < b.1)
      (materialiseRegions pos runs) := by
  intro runs
  induction runs with
  | nil => intro pos _ _; simp [materialiseRegions]
  | cons p rest ih =>
    intro pos hpos halt
    obtain ⟨b, n⟩ := p
    have htail : List.Chain' (fun a b => a.1 ≠ b.1) rest :=
      (List.chain'_cons'.mp halt).2
    have hrest : ∀ q ∈ rest, 1 ≤ q.2 := fun q hq => hpos q (by simp [hq])
    cases b
    · rw [show materialiseRegions pos ((false, n) :: rest) =
            materialiseRegions (pos + n) rest from rfl]
      exact ih (pos + n) hrest htail
    · rw [show materialiseRegions pos ((true, n) :: rest) =
            (pos, pos + (n : Int) - 1) ::
              materialiseRegions (pos + n) rest from rfl]
      refine List.pairwise_cons.mpr ⟨?_, ih (pos + n) hrest htail⟩
      intro rg hrg
      have hmm := mat_mem rest (pos + n) rg hrest hrg
      cases rest with
      | nil => simp [materialiseRegions] at hrg
      | cons q rest2 =>
        obtain ⟨b2, m⟩ := q
        have hb2 : b2 = false := by
          have := (List.chain'_cons'.mp halt).1 (b2, m) (by simp)
          simpa using this
        subst hb2
        have hm : 1 ≤ m := hpos (false, m) (by simp)
        have hlb : startLB ((false, m) :: rest2) (pos + n) =
            pos + n + m := rfl
        simp only at hmm ⊢
        omega

/-- A list already pairwise ordered by the comparison is left unchanged
by the stable sort. -/
theorem sortLe_eq_self (le : α → α → Bool) :
    ∀ (l : List α), List.Pairwise (fun a b => le a b = true) l →
      sortLe le l = l := by
  intro l
  induction l with
  | nil => intro _; rfl
  | cons x xs ih =>
    intro hp
    obtain ⟨hx, ht⟩ := List.pairwise_cons.mp hp
    rw [show sortLe le (x :: xs) = insertLe le x (sortLe le xs) from rfl]
    rw [ih ht]
    cases xs with
    | nil => rfl
    | cons y ys =>
      rw [show insertLe le x (y :: ys) =
            (if le x y then x :: y :: ys else y :: insertLe le x ys) from rfl]
      rw [if_pos (hx y (by simp))]

/-- Reduction of the second constructor step once `setLastHC` is
known. -/
theorem match_setLastHC (identifier : String) (X : List Component)
    (l2 : List Component) (h : setLastHC X = some l2) :
    (match (match setLastHC X with
            | none => Except.error SLError.index
            | some l => Except.ok l) with
     | Except.error e => (Except.error e : Except SLError SpliceList)
     | Except.ok comps2 =>
       Except.ok ⟨identifier, comps2, regionsOf comps2,
         junctionsOf comps2⟩) =
    Except.ok ⟨identifier, l2, regionsOf l2, junctionsOf l2⟩ := by
  rw [h]

/-- The constructor succeeds on a nonempty exon list whose sorted form
has no adjacent overlap, for any junction flags. -/
theorem mkSpliceList_isOk (identifier : String) (exons : List (Int × Int))
    (l r : Bool) (hne : exons ≠ [])
    (hno : overlapAdjacent (sortExons exons) = false) :
    ∃ sl, mkSpliceList identifier exons l r = .ok sl := by
  have hlen : (sortExons exons).length = exons.length := length_sortExons exons
  rcases hsv : sortExons exons with _ | ⟨e, tail⟩
  · rw [hsv] at hlen
    exact absurd (List.length_eq_zero.mp hlen.symm) hne
  · rw [hsv] at hno
    unfold mkSpliceList
    rw [hsv]
    simp only [hno, Bool.false_eq_true, if_false]
    cases l <;> cases r
    · exact ⟨_, rfl⟩
    · obtain ⟨l2, hl2⟩ := setLastHC_of_ne_nil
        (Component.region ⟨e.1, e.2⟩ ::
         Component.junction ⟨e.2, JKind.tEnd, false, false⟩ ::
         tail.flatMap exonTriple) (by simp)
      exact ⟨_, match_setLastHC identifier _ l2 hl2⟩
    · exact ⟨_, rfl⟩
    · obtain ⟨l2, hl2⟩ := setLastHC_of_ne_nil
        ((Component.junction ⟨e.1, JKind.tStart, false, false⟩).setHC ::
         Component.region ⟨e.1, e.2⟩ ::
         Component.junction ⟨e.2, JKind.tEnd, false, false⟩ ::
         tail.flatMap exonTriple) (by simp)
      exact ⟨_, match_setLastHC identifier _ l2 hl2⟩

/-- C10: regions returned by the region-list derivation are strictly
increasing with a gap of at least two positions between consecutive
regions, and constructing a SpliceList from a nonempty such list never
fails (in particular it never raises `OverlappingExonsError`). -/
theorem c10_region_gaps (pos skip mapT : Int) (cigar : String)
    (idStr : String) (regs : List (Int × Int)) (l r : Bool)
    (h : getRegionList pos cigar skip mapT = .ok (regs, l, r)) :
    List.Chain' (fun a b => a.2 + 1 < b.1) regs ∧
    (regs ≠ [] → ∃ sl, mkSpliceList idStr regs l r = .ok sl) := by
  unfold getRegionList at h
  cases hexp : expandCigar cigar with
  | error e => rw [hexp] at h; exact absurd h (by simp)
  | ok expanded =>
    rw [hexp] at h
    simp only [Except.ok.injEq, Prod.mk.injEq] at h
    obtain ⟨hregs, -, -⟩ := h
    set B := (((expanded.filter (fun op =>
        decide (op ∈ cigarMappingOps) || op == 'S')).filter
          (fun op => !(op == 'S'))).map
            (fun op => decide (op ∈ cigarMapsBoth))) with hB
    set runs := mergeRuns (absorbSkips skip (rleRuns B)) with hruns
    have hpos3 : ∀ p ∈ runs, 1 ≤ p.2 :=
      mergeRuns_pos _ (absorbSkips_pos skip _ (rleRuns_pos _))
    have halt : List.Chain' (fun a b => a.1 ≠ b.1) runs := mergeRuns_alt _
    have hpw : List.Pairwise (fun a b : Int × Int => a.2 + 1 < b.1)
        (materialiseRegions pos runs) := mat_pairwise runs pos hpos3 halt
    have hmem0 : ∀ rg ∈ materialiseRegions pos runs, rg.1 ≤ rg.2 :=
      fun rg hrg => (mat_mem runs pos rg hpos3 hrg).2
    have hsub : (mapTolFilter mapT (materialiseRegions pos runs)).Sublist
        (materialiseRegions pos runs) := List.filter_sublist _
    have hpwf : List.Pairwise (fun a b : Int × Int => a.2 + 1 < b.1) regs :=
      hregs ▸ (hpw.sublist hsub)
    have hmemf : ∀ rg ∈ regs, rg.1 ≤ rg.2 := by
      intro rg hrg
      exact hmem0 rg (hsub.subset (hregs ▸ hrg))
    constructor
    · exact hpwf.chain'
    · intro hne
      have hple : List.Pairwise
          (fun a b : Int × Int => decide (a.1 ≤ b.1) = true) regs := by
        refine List.Pairwise.imp_of_mem ?_ hpwf
        intro a b ha hb hab
        have := hmemf a ha
        simp only [decide_eq_true_eq]
        omega
      have hsort : sortExons regs = regs := sortLe_eq_self _ regs hple
      have hov : overlapAdjacent (sortExons regs) = false := by
        rw [hsort]
        exact overlapAdjacent_eq_false regs
          ((hpwf.imp (fun hab => by omega)).chain')
      exact mkSpliceList_isOk idStr regs l r hne hov

/-- Witness for the C10 theorem at a concrete input. -/
theorem c10_witness :
    getRegionList 100 "3M1I2D4M" 2 0 = .ok ([(100, 108)], false, false) ∧
    List.Chain' (fun a b : Int × Int => a.2 + 1 < b.1)
      [((100 : Int), (108 : Int))] ∧
    ([((100 : Int), (108 : Int))] ≠ []) ∧
    (∃ sl, mkSpliceList "q" [((100 : Int), (108 : Int))] false false =
      .ok sl) := by
  have h := c10_region_gaps 100 2 0 "3M1I2D4M" "q" [(100, 108)] false false
    (by decide)
  exact ⟨by decide, h.1, by decide, h.2 (by decide)⟩

theorem sortPair_le (q : Int × Int) : (sortPair q).1 ≤ (sortPair q).2 := by
  unfold sortPair
  split
  · omega
  · simp only
    omega

theorem mem_insertLe (le : α → α → Bool) (x a : α) :
    ∀ l : List α, a ∈ insertLe le x l → a = x ∨ a ∈ l := by
  intro l
  induction l with
  | nil => intro h; simp [insertLe] at h; exact Or.inl h
  | cons y ys ih =>
    intro h
    rw [show insertLe le x (y :: ys) =
          (if le x y then x :: y :: ys else y :: insertLe le x ys)
        from rfl] at h
    split at h
    · rcases List.mem_cons.mp h with he | ht
      · exact Or.inl he
      · exact Or.inr ht
    · rcases List.mem_cons.mp h with he | ht
      · exact Or.inr (by simp [he])
      · rcases ih ht with he2 | ht2
        · exact Or.inl he2
        · exact Or.inr (by simp [ht2])

theorem mem_sortLe (le : α → α → Bool) :
    ∀ (l : List α) (a : α), a ∈ sortLe le l → a ∈ l := by
  intro l
  induction l with
  | nil => intro a h; simp [sortLe] at h
  | cons x xs ih =>
    intro a h
    rw [show sortLe le (x :: xs) = insertLe le x (sortLe le xs) from rfl] at h
    rcases mem_insertLe le x a _ h with he | ht
    · simp [he]
    · exact List.mem_cons_of_mem _ (ih a ht)

/-- C5 (amended): the per-group reversal normalisation of the
Annotations constructor sorts every exon pair of the group ascending
exactly when the group's first exon is reversed; otherwise the group is
passed through unchanged. -/
theorem c5_reversal_normalisation (exons : List (Int × Int))
    (e : Int × Int) (rest : List (Int × Int)) (hx : exons = e :: rest) :
    (e.2 < e.1 → ∀ p ∈ normaliseGroup exons, p.1 ≤ p.2) ∧
    (¬ e.2 < e.1 → normaliseGroup exons = exons) := by
  subst hx
  constructor
  · intro hrev p hp
    rw [show normaliseGroup (e :: rest) =
          (if e.2 < e.1 then sortExons ((e :: rest).map sortPair)
           else e :: rest) from rfl] at hp
    rw [if_pos hrev] at hp
    have hp2 : p ∈ (e :: rest).map sortPair := mem_sortLe _ _ p hp
    obtain ⟨q, _, hfq⟩ := List.mem_map.mp hp2
    rw [← hfq]
    exact sortPair_le q
  · intro hfwd
    rw [show normaliseGroup (e :: rest) =
          (if e.2 < e.1 then sortExons ((e :: rest).map sortPair)
           else e :: rest) from rfl]
    rw [if_neg hfwd]

/-- Witness for the amended C5 theorem at a concrete input. -/
theorem c5_witness :
    (((2 : Int) < 5 →
      ∀ p ∈ normaliseGroup [((5 : Int), (2 : Int)), (10, 3)], p.1 ≤ p.2) ∧
     (¬ (2 : Int) < 5 →
      normaliseGroup [((5 : Int), (2 : Int)), (10, 3)] =
        [(5, 2), (10, 3)])) ∧
    normaliseGroup [((5 : Int), (2 : Int)), (10, 3)] = [(2, 5), (3, 10)] :=
  ⟨c5_reversal_normalisation [(5, 2), (10, 3)] (5, 2) [(10, 3)] rfl,
   by decide⟩

/-- Folded precursor-start update, mirroring the per-group
`optMin` updates. -/
def foldOptMin (o : Option Int) : List Int → Option Int
  | [] => o
  | v :: vs => foldOptMin (some (optMin o v)) vs

/-- Folded precursor-stop update. -/
def foldOptMax (o : Option Int) : List Int → Option Int
  | [] => o
  | v :: vs => foldOptMax (some (optMax o v)) vs

/-- First-exon starts of the groups still to be closed: the group being
accumulated, extended by the upcoming rows of the same id, then the runs
of the remaining rows. -/
def pendStarts (current : String) (exons : List (Int × Int))
    (rows : List GtfRow) : List Int :=
  normFirstStart (exons ++
      (rows.takeWhile (fun x => x.tid == current)).map rowPair) ::
    (groupRuns (rows.dropWhile (fun x => x.tid == current))).map
      (fun g => normFirstStart (g.map rowPair))

/-- Last-exon stops of the groups still to be closed. -/
def pendStops (current : String) (exons : List (Int × Int))
    (rows : List GtfRow) : List Int :=
  normLastStop (exons ++
      (rows.takeWhile (fun x => x.tid == current)).map rowPair) ::
    (groupRuns (rows.dropWhile (fun x => x.tid == current))).map
      (fun g => normLastStop (g.map rowPair))

theorem closeGroup_values (current : String) (exons : List (Int × Int))
    (sl : SpliceList) (s e : Int)
    (h : closeGroup current exons = .ok (sl, s, e)) :
    s = normFirstStart exons ∧ e = normLastStop exons := by
  simp only [closeGroup] at h
  cases hm : mkSpliceList current (normaliseGroup exons) true true with
  | error er => rw [hm] at h; exact absurd h (by simp)
  | ok sl2 =>
    rw [hm] at h
    dsimp only at h
    cases hg : normaliseGroup exons with
    | nil => rw [hg] at h; exact absurd h (by simp)
    | cons e2 rest2 =>
      rw [hg] at h
      dsimp only at h
      cases hl : (e2 :: rest2).getLast? with
      | none => simp at hl
      | some last =>
        rw [hl] at h
        simp only [Except.ok.injEq, Prod.mk.injEq] at h
        obtain ⟨-, hs, he⟩ := h
        constructor
        · rw [← hs]
          unfold normFirstStart
          rw [hg]
        · rw [← he]
          unfold normLastStop
          rw [hg, hl]

theorem foldOptMin_some (l : List Int) :
    ∀ a : Int, foldOptMin (some a) l = some (l.foldl min a) := by
  induction l with
  | nil => intro a; rfl
  | cons v vs ih =>
    intro a
    rw [show foldOptMin (some a) (v :: vs) =
          foldOptMin (some (optMin (some a) v)) vs from rfl]
    rw [show optMin (some a) v = min a v from rfl]
    rw [ih (min a v)]
    rfl

theorem foldOptMax_some (l : List Int) :
    ∀ a : Int, foldOptMax (some a) l = some (l.foldl max a) := by
  induction l with
  | nil => intro a; rfl
  | cons v vs ih =>
    intro a
    rw [show foldOptMax (some a) (v :: vs) =
          foldOptMax (some (optMax (some a) v)) vs from rfl]
    rw [show optMax (some a) v = max a v from rfl]
    rw [ih (max a v)]
    rfl

theorem groupRuns_nil : groupRuns [] = [] := by
  rw [groupRuns]

theorem annLoop_last :
    ∀ (rows : List GtfRow) (current : String) (exons : List (Int × Int))
      (pstart pend : Option Int) (variants vs : List SpliceList),
      annLoop current exons pstart pend variants rows = .ok vs →
      vs.getLast? = (mkSpliceList "pre-mRNA"
        [((foldOptMin pstart (pendStarts current exons rows)).getD 0,
          (foldOptMax pend (pendStops current exons rows)).getD 0)]
        true true).toOption := by
  intro rows
  induction rows with
  | nil =>
    intro current exons pstart pend variants vs h
    rw [show annLoop current exons pstart pend variants [] =
          (match closeGroup current exons with
           | .error e => .error e
           | .ok (sl, s, e) =>
             match mkSpliceList "pre-mRNA"
                 [(optMin pstart s, optMax pend e)] true true with
             | .error err => .error err
             | .ok pre => .ok (variants ++ [sl, pre])) from rfl] at h
    cases hc : closeGroup current exons with
    | error er => rw [hc] at h; exact absurd h (by simp)
    | ok t =>
      obtain ⟨sl, s, e⟩ := t
      rw [hc] at h
      dsimp only at h
      obtain ⟨hs, he⟩ := closeGroup_values current exons sl s e hc
      cases hp : mkSpliceList "pre-mRNA"
          [(optMin pstart s, optMax pend e)] true true with
      | error er => rw [hp] at h; exact absurd h (by simp)
      | ok pre =>
        rw [hp] at h
        simp only [Except.ok.injEq] at h
        have hval : (foldOptMin pstart (pendStarts current exons [])).getD 0 =
            optMin pstart s := by
          unfold pendStarts
          simp only [List.takeWhile_nil, List.dropWhile_nil, List.map_nil,
            List.append_nil]
          rw [groupRuns_nil]
          rw [← hs]
          rfl
        have hval2 : (foldOptMax pend (pendStops current exons [])).getD 0 =
            optMax pend e := by
          unfold pendStops
          simp only [List.takeWhile_nil, List.dropWhile_nil, List.map_nil,
            List.append_nil]
          rw [groupRuns_nil]
          rw [← he]
          rfl
        rw [hval, hval2, hp, ← h]
        rw [show variants ++ [sl, pre] = (variants ++ [sl]) ++ [pre] by simp]
        rw [List.getLast?_concat]
        rfl
  | cons row rest ih =>
    intro current exons pstart pend variants vs h
    rw [show annLoop current exons pstart pend variants (row :: rest) =
          (if row.tid == current then
            annLoop current (exons ++ [(row.start, row.stop)]) pstart pend
              variants rest
          else
            match closeGroup current exons with
            | .error e => .error e
            | .ok (sl, s, e) =>
              annLoop row.tid [(row.start, row.stop)]
                (some (optMin pstart s)) (some (optMax pend e))
                (variants ++ [sl]) rest) from rfl] at h
    by_cases hid : (row.tid == current) = true
    · rw [if_pos hid] at h
      have := ih current (exons ++ [(row.start, row.stop)]) pstart pend
        variants vs h
      rw [this]
      have hps : pendStarts current (exons ++ [(row.start, row.stop)]) rest =
          pendStarts current exons (row :: rest) := by
        unfold pendStarts
        simp only [List.takeWhile_cons, List.dropWhile_cons, hid]
        simp [rowPair]
      have hpe : pendStops current (exons ++ [(row.start, row.stop)]) rest =
          pendStops current exons (row :: rest) := by
        unfold pendStops
        simp only [List.takeWhile_cons, List.dropWhile_cons, hid]
        simp [rowPair]
      rw [hps, hpe]
    · rw [if_neg hid] at h
      cases hc : closeGroup current exons with
      | error er => rw [hc] at h; exact absurd h (by simp)
      | ok t =>
        obtain ⟨sl, s, e⟩ := t
        rw [hc] at h
        dsimp only at h
        obtain ⟨hs, he⟩ := closeGroup_values current exons sl s e hc
        have := ih row.tid [(row.start, row.stop)] (some (optMin pstart s))
          (some (optMax pend e)) (variants ++ [sl]) vs h
        rw [this]
        have hid3 : (row.tid == current) = false := by simpa using hid
        have hps : pendStarts current exons (row :: rest) =
            normFirstStart exons ::
              pendStarts row.tid [(row.start, row.stop)] rest := by
          unfold pendStarts
          simp only [List.takeWhile_cons, List.dropWhile_cons, hid3,
            Bool.false_eq_true, if_false]
          rw [groupRuns]
          simp [rowPair]
        have hpe : pendStops current exons (row :: rest) =
            normLastStop exons ::
              pendStops row.tid [(row.start, row.stop)] rest := by
          unfold pendStops
          simp only [List.takeWhile_cons, List.dropWhile_cons, hid3,
            Bool.false_eq_true, if_false]
          rw [groupRuns]
          simp [rowPair]
        rw [hps, hpe]
        rw [show foldOptMin pstart (normFirstStart exons ::
              pendStarts row.tid [(row.start, row.stop)] rest) =
            foldOptMin (some (optMin pstart (normFirstStart exons)))
              (pendStarts row.tid [(row.start, row.stop)] rest) from rfl]
        rw [show foldOptMax pend (normLastStop exons ::
              pendStops row.tid [(row.start, row.stop)] rest) =
            foldOptMax (some (optMax pend (normLastStop exons)))
              (pendStops row.tid [(row.start, row.stop)] rest) from rfl]
        rw [hs, he]

theorem foldOptMin_eq_listMin : ∀ l : List Int, foldOptMin none l = listMin l := by
  intro l
  cases l with
  | nil => rfl
  | cons v vs =>
    rw [show foldOptMin none (v :: vs) = foldOptMin (some v) vs from rfl]
    rw [foldOptMin_some]
    rfl

theorem foldOptMax_eq_listMax : ∀ l : List Int, foldOptMax none l = listMax l := by
  intro l
  cases l with
  | nil => rfl
  | cons v vs =>
    rw [show foldOptMax none (v :: vs) = foldOptMax (some v) vs from rfl]
    rw [foldOptMax_some]
    rfl

/-- C4 (amended): the Annotations constructor ends its variant list with
the synthesized pre-mRNA SpliceList, whose single region spans from the
minimum over groups of the group's (normalised) first exon's start to the
maximum over groups of the group's (normalised) last exon's stop, with
both endpoint junctions set. -/
theorem c4_premrna_span (rows : List GtfRow) (vs : List SpliceList)
    (h : annotInit rows = .ok vs) :
    vs.getLast? = (mkSpliceList "pre-mRNA"
      [((listMin (groupStarts rows)).getD 0,
        (listMax (groupStops rows)).getD 0)] true true).toOption := by
  cases rows with
  | nil => exact absurd h (by simp [annotInit])
  | cons r rest =>
    rw [show annotInit (r :: rest) =
          annLoop r.tid [] none none [] (r :: rest) from rfl] at h
    rw [annLoop_last (r :: rest) r.tid [] none none [] vs h]
    have hps : pendStarts r.tid [] (r :: rest) = groupStarts (r :: rest) := by
      unfold pendStarts groupStarts
      simp only [List.takeWhile_cons, List.dropWhile_cons, beq_self_eq_true,
        if_true, List.nil_append]
      rw [groupRuns]
      simp
    have hpe : pendStops r.tid [] (r :: rest) = groupStops (r :: rest) := by
      unfold pendStops groupStops
      simp only [List.takeWhile_cons, List.dropWhile_cons, beq_self_eq_true,
        if_true, List.nil_append]
      rw [groupRuns]
      simp
    rw [hps, hpe, foldOptMin_eq_listMin, foldOptMax_eq_listMax]

/-- GTF rows of two transcripts used by the C4 witness. -/
def rowsW : List GtfRow := [⟨10, 50, "a"⟩, ⟨70, 90, "a"⟩, ⟨5, 20, "b"⟩]

/-- The variant list the constructor produces on `rowsW`. -/
def vsW : List SpliceList := (annotInit rowsW).toOption.getD []

/-- Witness for the amended C4 theorem at a concrete input. -/
theorem c4_witness :
    annotInit rowsW = .ok vsW ∧
    vsW.getLast? = (mkSpliceList "pre-mRNA"
      [((listMin (groupStarts rowsW)).getD 0,
        (listMax (groupStops rowsW)).getD 0)] true true).toOption :=
  ⟨by decide, c4_premrna_span rowsW vsW (by decide)⟩

theorem scanMiddles_conserve :
    ∀ (rest group : List SamLine) (rn : Option String) (seen : List SamLine)
      (g' : List SamLine) (rn' : Option String) (m' : List SamLine),
      scanMiddles group rn seen rest = (g', rn', m') →
      (↑g' + ↑m' : Multiset SamLine) = ↑group + ↑seen + ↑rest := by
  intro rest
  induction rest with
  | nil =>
    intro group rn seen g' rn' m' h
    rw [show scanMiddles group rn seen [] = (group, rn, seen) from rfl] at h
    simp only [Prod.mk.injEq] at h
    obtain ⟨h1, h2, h3⟩ := h
    subst h1; subst h3
    simp
  | cons m rest ih =>
    intro group rn seen g' rn' m' h
    cases rn with
    | none =>
      rw [show scanMiddles group none seen (m :: rest) =
            (group, none, seen ++ m :: rest) from rfl] at h
      simp only [Prod.mk.injEq] at h
      obtain ⟨h1, h2, h3⟩ := h
      subst h1; subst h3
      rw [add_assoc, Multiset.coe_add seen (m :: rest)]
    | some r =>
      rw [show scanMiddles group (some r) seen (m :: rest) =
            (if m.qname == r then
               scanMiddles (group ++ [m]) (nextRnext m) seen rest
             else scanMiddles group (some r) (seen ++ [m]) rest)
          from rfl] at h
      by_cases hq : (m.qname == r) = true
      · rw [if_pos hq] at h
        rw [ih (group ++ [m]) (nextRnext m) seen g' rn' m' h]
        rw [← Multiset.coe_add group [m], ← Multiset.cons_coe m rest,
          Multiset.coe_singleton, ← Multiset.singleton_add]
        abel
      · rw [if_neg hq] at h
        rw [ih group (some r) (seen ++ [m]) g' rn' m' h]
        rw [← Multiset.coe_add seen [m], ← Multiset.cons_coe m rest,
          Multiset.coe_singleton, ← Multiset.singleton_add]
        abel

theorem takeLastMatch_conserve :
    ∀ (ls : List SamLine) (rn : Option String) (x : SamLine)
      (rest : List SamLine),
      takeLastMatch rn ls = some (x, rest) →
      (↑ls : Multiset SamLine) = x ::ₘ ↑rest := by
  intro ls
  induction ls with
  | nil => intro rn x rest h; simp [takeLastMatch] at h
  | cons l ls2 ih =>
    intro rn x rest h
    cases rn with
    | none =>
      rw [show takeLastMatch none (l :: ls2) = none from rfl] at h
      simp at h
    | some r =>
      rw [show takeLastMatch (some r) (l :: ls2) =
            (if l.qname == r then some (l, ls2)
             else (takeLastMatch (some r) ls2).map
               (fun p => (p.1, l :: p.2))) from rfl] at h
      by_cases hq : (l.qname == r) = true
      · rw [if_pos hq] at h
        simp only [Option.some.injEq, Prod.mk.injEq] at h
        obtain ⟨h1, h2⟩ := h
        subst h1; subst h2
        rw [Multiset.cons_coe]
      · rw [if_neg hq] at h
        cases ht : takeLastMatch (some r) ls2 with
        | none => rw [ht] at h; simp at h
        | some p =>
          obtain ⟨y, rest2⟩ := p
          rw [ht] at h
          simp only [Option.map_some', Option.some.injEq,
            Prod.mk.injEq] at h
          obtain ⟨h1, h2⟩ := h
          subst h1; subst h2
          rw [← Multiset.cons_coe l ls2, ih (some r) y rest2 ht,
            ← Multiset.cons_coe l rest2]
          exact Multiset.cons_swap l y ↑rest2

theorem scanMiddles_group_prefix :
    ∀ (rest group : List SamLine) (rn : Option String) (seen : List SamLine)
      (g' : List SamLine) (rn' : Option String) (m' : List SamLine),
      scanMiddles group rn seen rest = (g', rn', m') →
      ∃ suf, g' = group ++ suf := by
  intro rest
  induction rest with
  | nil =>
    intro group rn seen g' rn' m' h
    rw [show scanMiddles group rn seen [] = (group, rn, seen) from rfl] at h
    simp only [Prod.mk.injEq] at h
    exact ⟨[], by simp [← h.1]⟩
  | cons m rest ih =>
    intro group rn seen g' rn' m' h
    cases rn with
    | none =>
      rw [show scanMiddles group none seen (m :: rest) =
            (group, none, seen ++ m :: rest) from rfl] at h
      simp only [Prod.mk.injEq] at h
      exact ⟨[], by simp [← h.1]⟩
    | some r =>
      rw [show scanMiddles group (some r) seen (m :: rest) =
            (if m.qname == r then
               scanMiddles (group ++ [m]) (nextRnext m) seen rest
             else scanMiddles group (some r) (seen ++ [m]) rest)
          from rfl] at h
      by_cases hq : (m.qname == r) = true
      · rw [if_pos hq] at h
        obtain ⟨suf, hsuf⟩ := ih (group ++ [m]) (nextRnext m) seen g' rn' m' h
        exact ⟨[m] ++ suf, by simp [hsuf]⟩
      · rw [if_neg hq] at h
        exact ih group (some r) (seen ++ [m]) g' rn' m' h

theorem processFirsts_conserve :
    ∀ (fs ms ls : List SamLine) (gs : List (List SamLine))
      (orphans ms2 ls2 : List SamLine),
      processFirsts fs ms ls = (gs, orphans, ms2, ls2) →
      (↑gs.flatten + ↑orphans + ↑ms2 + ↑ls2 : Multiset SamLine) =
        ↑fs + ↑ms + ↑ls := by
  intro fs
  induction fs with
  | nil =>
    intro ms ls gs orphans ms2 ls2 h
    rw [show processFirsts [] ms ls = ([], [], ms, ls) from rfl] at h
    simp only [Prod.mk.injEq] at h
    obtain ⟨h1, h2, h3, h4⟩ := h
    subst h1; subst h2; subst h3; subst h4
    simp
  | cons f fs ih =>
    intro ms ls gs orphans ms2 ls2 h
    simp only [processFirsts] at h
    rcases hscan : scanMiddles [f] (nextRnext f) [] ms with ⟨g1, rn1, m1⟩
    rw [hscan] at h
    dsimp only at h
    have hsc : (↑g1 + ↑m1 : Multiset SamLine) = {f} + ↑ms := by
      have := scanMiddles_conserve ms [f] (nextRnext f) [] g1 rn1 m1 hscan
      simpa using this
    cases htake : takeLastMatch rn1 ls with
    | some p =>
      obtain ⟨x, ls3⟩ := p
      rw [htake] at h
      dsimp only at h
      rcases hrec : processFirsts fs m1 ls3 with ⟨gs4, or4, m4, l4⟩
      rw [hrec] at h
      dsimp only at h
      simp only [Prod.mk.injEq] at h
      obtain ⟨h1, h2, h3, h4⟩ := h
      subst h1; subst h2; subst h3; subst h4
      have ihh := ih m1 ls3 gs4 or4 m4 l4 hrec
      have htl : (↑ls : Multiset SamLine) = {x} + ↑ls3 := by
        rw [takeLastMatch_conserve ls rn1 x ls3 htake,
          ← Multiset.singleton_add]
      calc (↑((g1 ++ [x]) :: gs4).flatten + ↑or4 + ↑m4 + ↑l4 :
              Multiset SamLine)
          = (↑g1 + {x}) + (↑gs4.flatten + ↑or4 + ↑m4 + ↑l4) := by
            rw [List.flatten_cons, ← Multiset.coe_add (g1 ++ [x]),
              ← Multiset.coe_add g1 [x], Multiset.coe_singleton]
            abel
        _ = (↑g1 + {x}) + (↑fs + ↑m1 + ↑ls3) := by rw [ihh]
        _ = (↑g1 + ↑m1) + ({x} + ↑ls3) + ↑fs := by abel
        _ = ({f} + ↑ms) + ({x} + ↑ls3) + ↑fs := by rw [hsc]
        _ = ↑(f :: fs) + ↑ms + ↑ls := by
            rw [← htl, ← Multiset.cons_coe f fs, ← Multiset.singleton_add]
            abel
    | none =>
      rw [htake] at h
      dsimp only at h
      by_cases hlen : (g1.length == 1) = true
      · rw [if_pos hlen] at h
        rcases hrec : processFirsts fs m1 ls with ⟨gs4, or4, m4, l4⟩
        rw [hrec] at h
        dsimp only at h
        simp only [Prod.mk.injEq] at h
        obtain ⟨h1, h2, h3, h4⟩ := h
        subst h1; subst h2; subst h3; subst h4
        have ihh := ih m1 ls gs4 or4 m4 l4 hrec
        have hg1 : g1 = [f] := by
          obtain ⟨suf, hsuf⟩ :=
            scanMiddles_group_prefix ms [f] (nextRnext f) [] g1 rn1 m1 hscan
          rw [hsuf]
          rw [hsuf] at hlen
          simp only [List.length_append, List.length_cons,
            List.length_nil, beq_iff_eq] at hlen
          have : suf = [] := List.length_eq_zero.mp (by omega)
          simp [this]
        have hm1 : (↑m1 : Multiset SamLine) = ↑ms := by
          rw [hg1] at hsc
          simp only [Multiset.coe_singleton] at hsc
          exact add_left_cancel hsc
        calc (↑gs4.flatten + ↑(f :: or4) + ↑m4 + ↑l4 : Multiset SamLine)
            = {f} + (↑gs4.flatten + ↑or4 + ↑m4 + ↑l4) := by
              rw [← Multiset.cons_coe f or4, ← Multiset.singleton_add]
              abel
          _ = {f} + (↑fs + ↑m1 + ↑ls) := by rw [ihh]
          _ = {f} + (↑fs + ↑ms + ↑ls) := by rw [hm1]
          _ = ↑(f :: fs) + ↑ms + ↑ls := by
              rw [← Multiset.cons_coe f fs, ← Multiset.singleton_add]
              abel
      · rw [if_neg hlen] at h
        rcases hrec : processFirsts fs m1 ls with ⟨gs4, or4, m4, l4⟩
        rw [hrec] at h
        dsimp only at h
        simp only [Prod.mk.injEq] at h
        obtain ⟨h1, h2, h3, h4⟩ := h
        subst h1; subst h2; subst h3; subst h4
        have ihh := ih m1 ls gs4 or4 m4 l4 hrec
        calc (↑(g1 :: gs4).flatten + ↑or4 + ↑m4 + ↑l4 : Multiset SamLine)
            = ↑g1 + (↑gs4.flatten + ↑or4 + ↑m4 + ↑l4) := by
              rw [List.flatten_cons, ← Multiset.coe_add g1]
              abel
          _ = ↑g1 + (↑fs + ↑m1 + ↑ls) := by rw [ihh]
          _ = (↑g1 + ↑m1) + ↑fs + ↑ls := by abel
          _ = ({f} + ↑ms) + ↑fs + ↑ls := by rw [hsc]
          _ = ↑(f :: fs) + ↑ms + ↑ls := by
              rw [← Multiset.cons_coe f fs, ← Multiset.singleton_add]
              abel

theorem flatten_map_singleton (l : List α) :
    (l.map (fun a => [a])).flatten = l := by
  induction l with
  | nil => rfl
  | cons a rest ih => simp [ih]

/-- C1 (amended): when no grouped line carries the first-in-template and
last-in-template FLAG bits together, the multiset union of the groups
returned by the read grouping equals the input lines. -/
theorem c1_grouping_conservation (alignments : List SamLine)
    (h : ∀ l ∈ alignments, isGrouped l = true →
      ¬(isFirstSeg l = true ∧ isLastSeg l = true)) :
    Multiset.ofList (getReadGroups alignments).flatten =
      Multiset.ofList alignments := by
  simp only [getReadGroups]
  rcases hpf : processFirsts
      ((alignments.filter isGrouped).filter isFirstSeg)
      ((alignments.filter isGrouped).filter
        (fun l => !(isFirstSeg l) && !(isLastSeg l)))
      ((alignments.filter isGrouped).filter isLastSeg)
    with ⟨gs, or2, m2, l2⟩
  dsimp only
  rw [List.flatten_append, List.flatten_append, flatten_map_singleton,
    flatten_map_singleton]
  rw [← Multiset.coe_add, ← Multiset.coe_add, ← Multiset.coe_add,
    ← Multiset.coe_add]
  have hcons := processFirsts_conserve _ _ _ _ _ _ _ hpf
  have hp1 : (↑(alignments.filter (fun l => !(isGrouped l))) +
      ↑(alignments.filter isGrouped) : Multiset SamLine) = ↑alignments := by
    rw [Multiset.coe_add]
    refine Multiset.coe_eq_coe.mpr ?_
    exact (List.perm_append_comm).trans (List.filter_append_perm _ _)
  have hp2 : (↑((alignments.filter isGrouped).filter isFirstSeg) +
      ↑((alignments.filter isGrouped).filter (fun x => !(isFirstSeg x))) :
        Multiset SamLine) = ↑(alignments.filter isGrouped) := by
    rw [Multiset.coe_add]
    exact Multiset.coe_eq_coe.mpr (List.filter_append_perm _ _)
  have hp3 : (↑(((alignments.filter isGrouped).filter
        (fun x => !(isFirstSeg x))).filter isLastSeg) +
      ↑(((alignments.filter isGrouped).filter
        (fun x => !(isFirstSeg x))).filter (fun x => !(isLastSeg x))) :
        Multiset SamLine) =
      ↑((alignments.filter isGrouped).filter (fun x => !(isFirstSeg x))) := by
    rw [Multiset.coe_add]
    exact Multiset.coe_eq_coe.mpr (List.filter_append_perm _ _)
  have heq1 : ((alignments.filter isGrouped).filter
        (fun x => !(isFirstSeg x))).filter isLastSeg =
      (alignments.filter isGrouped).filter isLastSeg := by
    rw [List.filter_filter]
    refine List.filter_congr ?_
    intro x hx
    have hx2 := List.mem_filter.mp hx
    cases hcl : isLastSeg x with
    | false => simp
    | true =>
      have hnf : isFirstSeg x = false := by
        rcases Bool.eq_false_or_eq_true (isFirstSeg x) with hf | hf
        · exact absurd ⟨hf, hcl⟩ (h x hx2.1 hx2.2)
        · exact hf
      simp [hnf]
  have heq2 : ((alignments.filter isGrouped).filter
        (fun x => !(isFirstSeg x))).filter (fun x => !(isLastSeg x)) =
      (alignments.filter isGrouped).filter
        (fun l => !(isFirstSeg l) && !(isLastSeg l)) := by
    rw [List.filter_filter]
    refine List.filter_congr ?_
    intro x _
    exact Bool.and_comm _ _
  have hlm : (↑((alignments.filter isGrouped).filter isLastSeg) +
      ↑((alignments.filter isGrouped).filter
        (fun l => !(isFirstSeg l) && !(isLastSeg l))) : Multiset SamLine) =
      ↑((alignments.filter isGrouped).filter (fun x => !(isFirstSeg x))) := by
    rw [← heq1, ← heq2]
    exact hp3
  calc (↑gs.flatten + ↑(alignments.filter (fun l => !(isGrouped l))) +
          (↑or2 + ↑m2 + ↑l2) : Multiset SamLine)
      = (↑gs.flatten + ↑or2 + ↑m2 + ↑l2) +
          ↑(alignments.filter (fun l => !(isGrouped l))) := by abel
    _ = (↑((alignments.filter isGrouped).filter isFirstSeg) +
          ↑((alignments.filter isGrouped).filter
            (fun l => !(isFirstSeg l) && !(isLastSeg l))) +
          ↑((alignments.filter isGrouped).filter isLastSeg)) +
          ↑(alignments.filter (fun l => !(isGrouped l))) := by rw [hcons]
    _ = ↑(alignments.filter (fun l => !(isGrouped l))) +
          (↑((alignments.filter isGrouped).filter isFirstSeg) +
           (↑((alignments.filter isGrouped).filter isLastSeg) +
            ↑((alignments.filter isGrouped).filter
              (fun l => !(isFirstSeg l) && !(isLastSeg l))))) := by abel
    _ = ↑(alignments.filter (fun l => !(isGrouped l))) +
          (↑((alignments.filter isGrouped).filter isFirstSeg) +
           ↑((alignments.filter isGrouped).filter
             (fun x => !(isFirstSeg x)))) := by rw [hlm]
    _ = ↑(alignments.filter (fun l => !(isGrouped l))) +
          ↑(alignments.filter isGrouped) := by rw [hp2]
    _ = ↑alignments := hp1

/-- First mate of a proper read pair. -/
def pairFirstLine : SamLine := ⟨"q", 65, "="⟩

/-- Last mate of a proper read pair. -/
def pairLastLine : SamLine := ⟨"q", 129, "="⟩

/-- Witness for the amended C1 theorem at a concrete input. -/
theorem c1_witness :
    (∀ l ∈ [pairFirstLine, pairLastLine], isGrouped l = true →
      ¬(isFirstSeg l = true ∧ isLastSeg l = true)) ∧
    Multiset.ofList (getReadGroups [pairFirstLine, pairLastLine]).flatten =
      Multiset.ofList [pairFirstLine, pairLastLine] :=
  ⟨by decide,
   c1_grouping_conservation [pairFirstLine, pairLastLine] (by decide)⟩
